import Mathlib

/-!
# Verification of the cveapi indexing/synchronization engine

Shallow embedding of the Go sources of the `cveapi` repository:

* `internal/index/index.go`  — the `Index` type composing a BoltDB-backed
  `Store` (documents + per-file metadata) with a Bleve search index:
  dual-write `Index`/`Delete`, `Reindex`, `ListLatest`, `NewIndex`.
* `main.go` — `buildIndex` path normalization, `indexFile`, `syncOnce`.
* `internal/worker/pool.go` — the bounded worker pool.

External engines (BoltDB buckets, the Bleve index, Go's `container/heap`)
are modelled by their documented contracts: a Bolt bucket is an
association list with put/delete/lookup and in-order iteration, the Bleve
index is a finite map from document id to the indexed record, and
`container/heap` over the repository's `_minHeap` (`Less` compares
`DatePublished` with `Before`) is a min-priority queue represented as a
list kept sorted ascending by publish date (`Push` = ordered insert,
`Pop` = remove the minimum, i.e. the head).  The JSON parser
(`json.Unmarshal` into `files.CVERecord`) is an external collaborator and
is passed as a function parameter `parse`.  Machine timestamps
(`UnixNano`) are modelled as integers, publish dates as naturals.
-/

/-- A CVE record (`files.CVERecord`), reduced to the fields the engine
inspects: the CVE id, the publish date (`cveMetadata.datePublished`,
as a totally ordered instant) and one free-text field standing for the
searchable content. -/
structure CVERec where
  cveId : String
  datePublished : Nat
  title : String
deriving DecidableEq, Repr

/-- Association-list lookup, the model of a point `Get` on a Bolt bucket
or of membership in the Bleve index. -/
def lookupA {κ β : Type} [DecidableEq κ] : List (κ × β) → κ → Option β
  | [], _ => none
  | (k, v) :: t, k' => if k = k' then some v else lookupA t k'

/-- Association-list upsert: the model of a Bolt `Put` (or a Bleve
`Index` of an existing id), which overwrites the value at the key and
otherwise appends. -/
def updA {κ β : Type} [DecidableEq κ] : List (κ × β) → κ → β → List (κ × β)
  | [], k, v => [(k, v)]
  | (k', v') :: t, k, v => if k' = k then (k, v) :: t else (k', v') :: updA t k v

/-- Association-list delete: the model of a Bolt `Delete` (or a Bleve
`Delete`), which removes the key (a no-op on an absent key). -/
def eraseA {κ β : Type} [DecidableEq κ] : List (κ × β) → κ → List (κ × β)
  | [], _ => []
  | (k', v') :: t, k => if k' = k then eraseA t k else (k', v') :: eraseA t k

/-- Per-file change-detection record (`index.FileMeta`). -/
structure FileMeta where
  modTime : Int
  size : Int
  docID : String
deriving DecidableEq, Repr

/-- A file path, split as `filepath.Dir`/`filepath.Base`; `base` includes
the extension.  `filepath.Base` of the model is the `base` field. -/
structure FPath where
  dir : String
  base : String
deriving DecidableEq, Repr

/-- The mutable state owned by `index.Index`: the Bolt `cves` bucket
(`store`), the Bleve index (`sidx`) and the Bolt `filemeta` bucket
(`fileMeta`). -/
structure SyncState where
  store : List (String × CVERec)
  sidx : List (String × CVERec)
  fileMeta : List (FPath × FileMeta)
deriving DecidableEq, Repr

/-- The empty state produced by opening fresh store and index. -/
def emptyState : SyncState := ⟨[], [], []⟩

/-- Errors surfaced by the dual-write operations, separated the way
`Index.Index`/`Index.Delete` wrap them (`failed to store document` /
`failed to index document` / `failed to delete from index` /
`failed to delete from store`). -/
inductive DWErr where
  | storage (msg : String)
  | indexing (msg : String)
deriving DecidableEq, Repr

/-- `Index.Index(id, doc)` from `internal/index/index.go`: store the full
document (`store.Put`), then index it for search (`index.Index`).  The
two boolean parameters inject the possible failures of the underlying
engines; a failed Bolt `Update` leaves the bucket unchanged. -/
def putDual (storeFails indexFails : Bool) (st : SyncState) (id : String)
    (doc : CVERec) : Except DWErr Unit × SyncState :=
  if storeFails then
    (Except.error (DWErr.storage "failed to store document"), st)
  else
    let st1 : SyncState := { st with store := updA st.store id doc }
    if indexFails then
      (Except.error (DWErr.indexing "failed to index document"), st1)
    else
      (Except.ok (), { st1 with sidx := updA st1.sidx id doc })

/-- `Index.Delete(id)` from `internal/index/index.go`: delete from the
search index first, then from the store. -/
def deleteDual (indexFails storeFails : Bool) (st : SyncState) (id : String) :
    Except DWErr Unit × SyncState :=
  if indexFails then
    (Except.error (DWErr.indexing "failed to delete from index"), st)
  else
    let st1 : SyncState := { st with sidx := eraseA st.sidx id }
    if storeFails then
      (Except.error (DWErr.storage "failed to delete from store"), st1)
    else
      (Except.ok (), { st1 with store := eraseA st1.store id })

/-- `Index.Count()`: the Bleve `DocCount`, i.e. the number of entries in
the search index. -/
def countDocs (st : SyncState) : Nat := st.sidx.length

/-- `filepath.Join(dir, name)` for one component on the Linux separator. -/
def joinPath (dir name : String) : String := dir ++ "/" ++ name

/-- The second repair step of `buildIndex` (`main.go`): an index path
equal to the base path is relocated to `<BasePath>/.index`. -/
def resolveCollision (basePath ip : String) : String :=
  if ip = basePath then joinPath basePath ".index" else ip

/-- The index-path repair inside `buildIndex` (`main.go`): after
normalization, an empty index path defaults to `<BasePath>/.index`, and
an index path equal to the base path is relocated to the same hidden
subdirectory.  Paths are taken already in the canonical absolute form
that `normalizePath` (`filepath.Clean` + `filepath.Abs`) produces. -/
def resolveIndexPath (basePath indexPath : String) : String :=
  resolveCollision basePath
    (if indexPath = "" then joinPath basePath ".index" else indexPath)

/-- The outcome of `bleve.Open(indexPath)`: success, one of the two
recoverable sentinel errors the code compares against, or any other
failure. -/
inductive OpenErr where
  | pathDoesNotExist
  | metaMissing
  | other
deriving DecidableEq, Repr

/-- The Bleve index mapping, reduced to the custom field mappings
`NewIndex` installs: the names mapped as stored date-time fields and the
names mapped as stored text fields for quick id retrieval. -/
structure IndexMapping where
  dateFields : List String
  idFields : List String
deriving DecidableEq, Repr

/-- The custom mapping built inside `NewIndex`. -/
def customMapping : IndexMapping :=
  { dateFields :=
      ["cveMetadata.datePublished", "cveMetadata.dateUpdated", "cveMetadata.dateReserved"]
    idFields := ["cveMetadata.cveId"] }

/-- Observable side effects of `NewIndex`, in program order. -/
inductive NewIdxEv where
  | storeOpened
  | indexOpened
  | removedAll (path : String)
  | createdNew (path : String) (m : IndexMapping)
  | storeClosed
deriving DecidableEq, Repr

/-- `NewIndex(indexPath, storePath)` from `internal/index/index.go`.
`storeOpenOk` is the outcome of `NewStore`, `openResult` the outcome of
`bleve.Open` (`none` = opened), `createOk` the outcome of `bleve.New`.
Returns the error-or-success outcome together with the ordered list of
effects performed. -/
def newIndex (storeOpenOk : Bool) (openResult : Option OpenErr) (createOk : Bool)
    (indexPath : String) : Except String Unit × List NewIdxEv :=
  if storeOpenOk = false then
    (Except.error "failed to create store", [])
  else
    match openResult with
    | none => (Except.ok (), [NewIdxEv.storeOpened, NewIdxEv.indexOpened])
    | some e =>
      if e = OpenErr.pathDoesNotExist ∨ e = OpenErr.metaMissing then
        if createOk then
          (Except.ok (),
            [NewIdxEv.storeOpened, NewIdxEv.removedAll indexPath,
             NewIdxEv.createdNew indexPath customMapping])
        else
          (Except.error "failed to create new index",
            [NewIdxEv.storeOpened, NewIdxEv.removedAll indexPath, NewIdxEv.storeClosed])
      else
        (Except.error "failed to open index", [NewIdxEv.storeOpened, NewIdxEv.storeClosed])

/-- The store-scan part of `Index.Reindex`: `store.ForEach` re-submits
every stored document to the fresh index, but the callback *returns* the
`json.Unmarshal` error, which makes Bolt's `ForEach` stop and propagate
it.  `store` holds the raw stored bytes (as an opaque `String`), `parse`
models `json.Unmarshal`; the accumulated list is the content of the new
index.  Returns the final index contents together with the error. -/
def reindexLoop (parse : String → Option CVERec) :
    List (String × String) → List (String × CVERec) →
    Except String Unit × List (String × CVERec)
  | [], acc => (Except.ok (), acc)
  | (k, v) :: rest, acc =>
    match parse v with
    | none => (Except.error "failed to unmarshal document", acc)
    | some d => reindexLoop parse rest (acc ++ [(k, d)])

/-- `Index.Reindex()` from `internal/index/index.go`: close the index,
remove its directory, recreate it empty, then re-submit every stored
document; dies on close/remove/create failure, and otherwise returns the
result of the scan loop.  The returned list is the content of the
rebuilt index (`none` when the rebuild never reached the scan). -/
def reindex (closeOk removeOk createOk : Bool) (parse : String → Option CVERec)
    (store : List (String × String)) :
    Except String Unit × Option (List (String × CVERec)) :=
  if closeOk = false then (Except.error "failed to close index", none)
  else if removeOk = false then (Except.error "failed to remove existing index", none)
  else if createOk = false then (Except.error "failed to create new index", none)
  else
    let r := reindexLoop parse store []
    (r.1, some r.2)

/-- Helper for `extOf`: scan the reversed character list of a base name,
accumulating the characters after the last dot. -/
def extGo : List Char → List Char → Option String
  | [], _ => none
  | c :: rest, acc => if c = '.' then some (String.mk ('.' :: acc)) else extGo rest (c :: acc)

/-- `filepath.Ext` on a base name (no separators): the suffix starting at
the final dot, or the empty string when there is none. -/
def extOf (s : String) : String :=
  (extGo s.data.reverse []).getD ""

/-- A regular file as the sync pass sees it: its path, the
`ModTime().UnixNano()` and `Size()` reported by `os.Stat`/`DirEntry.Info`,
and its raw content.  A filesystem is the list of files in the order
`filepath.WalkDir` yields them; directory traversal itself (and the
skip of the index directory nested under the base path) is performed by
the OS walk and is modelled by this list. -/
structure FsFile where
  path : FPath
  modTime : Int
  size : Int
  content : String
deriving DecidableEq, Repr

/-- `os.Stat(path)` against the modelled filesystem. -/
def fileExists (fs : List FsFile) (p : FPath) : Bool :=
  fs.any (fun f => decide (f.path = p))

/-- Observable events of one `indexFile` call, in program order. -/
inductive Ev where
  | statOk
  | readOk
  | parseOk
  | storePut (id : String)
  | indexPut (id : String)
  | metaSet (p : FPath)
deriving DecidableEq, Repr

/-- `indexFile(idx, path)` from `main.go`: stat and read the file, parse
it into a `files.CVERecord`, derive the document id as
`filepath.Base(path)`, call `idx.Index(docID, rec)` (store write, then
index write), and finally `idx.SetFileMeta(path, meta)`.  Stat and read
always succeed against the modelled filesystem; `parse` models
`json.Unmarshal`.  Returns the new state (unchanged on error) and the
ordered event trace. -/
def indexFile (parse : String → Option CVERec) (f : FsFile) (st : SyncState) :
    Except String SyncState × List Ev :=
  match parse f.content with
  | none => (Except.error "failed to parse JSON", [Ev.statOk, Ev.readOk])
  | some rec =>
    let docID := f.path.base
    let st1 : SyncState := { st with store := updA st.store docID rec }
    let st2 : SyncState := { st1 with sidx := updA st1.sidx docID rec }
    let st3 : SyncState :=
      { st2 with fileMeta := updA st2.fileMeta f.path ⟨f.modTime, f.size, docID⟩ }
    (Except.ok st3,
      [Ev.statOk, Ev.readOk, Ev.parseOk, Ev.storePut docID, Ev.indexPut docID,
       Ev.metaSet f.path])

/-- The skip test of `syncOnce`: `err == nil && meta.ModTime ==
info.ModTime().UnixNano() && meta.Size == info.Size()`. -/
def metaOk (st : SyncState) (f : FsFile) : Bool :=
  match lookupA st.fileMeta f.path with
  | some m => decide (m.modTime = f.modTime) && decide (m.size = f.size)
  | none => false

/-- The walk callback of `syncOnce` applied to the files in walk order:
skip non-`.json` files; record visited files in `seen`; skip a file whose
stored `FileMeta` matches its current `(modTime, size)`; otherwise call
`indexFile`, counting the parse attempt and collecting its error.
Returns `(state, seen, parse count, errors)`. -/
def walkFiles (parse : String → Option CVERec) :
    List FsFile → SyncState → List FPath → Nat → List String →
    SyncState × List FPath × Nat × List String
  | [], st, seen, parses, errs => (st, seen, parses, errs)
  | f :: rest, st, seen, parses, errs =>
    if extOf f.path.base ≠ ".json" then
      walkFiles parse rest st seen parses errs
    else
      let seen' := seen ++ [f.path]
      if metaOk st f then
        walkFiles parse rest st seen' parses errs
      else
        match indexFile parse f st with
        | (Except.ok st', _) => walkFiles parse rest st' seen' (parses + 1) errs
        | (Except.error e, _) => walkFiles parse rest st seen' (parses + 1) (errs ++ [e])

/-- One stale entry's cleanup inside `syncOnce`: `idx.Delete(docID)`
(index erase, then store erase) followed by `idx.DeleteFileMeta(path)`. -/
def dropStale (st : SyncState) (pm : FPath × FileMeta) : SyncState :=
  { store := eraseA st.store pm.2.docID
    sidx := eraseA st.sidx pm.2.docID
    fileMeta := eraseA st.fileMeta pm.1 }

/-- The reconciliation phase of `syncOnce`: collect every `FileMeta`
entry whose path was not seen during the walk and whose file no longer
exists, then delete each one's document and metadata. -/
def reconcile (fs : List FsFile) (seen : List FPath) (st : SyncState) : SyncState :=
  let stale := st.fileMeta.filter (fun pm => decide (pm.1 ∉ seen) && !fileExists fs pm.1)
  stale.foldl dropStale st

/-- The result of one sync pass. -/
structure SyncResult where
  state : SyncState
  seen : List FPath
  parses : Nat
  errs : List String
deriving Repr

/-- `syncOnce(basePath, indexPath, idx)` from `main.go`, over the
modelled filesystem: walk the files, then reconcile deletions.  The
`parses` field is the instrumentation counter of parse attempts
(`json.Unmarshal` calls made through `indexFile`). -/
def syncOnce (parse : String → Option CVERec) (fs : List FsFile) (st : SyncState) :
    SyncResult :=
  let w := walkFiles parse fs st [] 0 []
  { state := reconcile fs w.2.1 w.1
    seen := w.2.1
    parses := w.2.2.1
    errs := w.2.2.2 }

/-- The order of the repository's `_minHeap.Less` (older publish date is
less), relaxed to its reflexive closure used for the sorted heap
representation. -/
def dateLE (a b : CVERec) : Prop := a.datePublished ≤ b.datePublished

/-- The descending companion order: more recent first. -/
def dateGE (a b : CVERec) : Prop := b.datePublished ≤ a.datePublished

/-- Descending order on `(id, datePublished)` pairs, the sort key of the
Bleve query `-cveMetadata.datePublished`. -/
def pairGE (a b : String × Nat) : Prop := b.2 ≤ a.2

instance : DecidableRel dateLE := fun a b =>
  inferInstanceAs (Decidable (a.datePublished ≤ b.datePublished))

instance : DecidableRel dateGE := fun a b =>
  inferInstanceAs (Decidable (b.datePublished ≤ a.datePublished))

instance : DecidableRel pairGE := fun a b => inferInstanceAs (Decidable (b.2 ≤ a.2))

instance : IsTotal CVERec dateLE := ⟨fun a b => Nat.le_total a.datePublished b.datePublished⟩

instance : IsTrans CVERec dateLE := ⟨fun _ _ _ h h' => Nat.le_trans h h'⟩

instance : IsTotal CVERec dateGE := ⟨fun a b => Nat.le_total b.datePublished a.datePublished⟩

instance : IsTrans CVERec dateGE := ⟨fun _ _ _ h h' => Nat.le_trans h' h⟩

instance : IsTotal (String × Nat) pairGE := ⟨fun a b => Nat.le_total b.2 a.2⟩

instance : IsTrans (String × Nat) pairGE := ⟨fun _ _ _ h h' => Nat.le_trans h' h⟩

/-- One iteration of the fallback scan of `ListLatest`: `heap.Push` the
record, and when the heap exceeds `limit`, `heap.Pop` the minimum
(oldest).  The min-heap of `container/heap` over the repository's
`_minHeap` is represented as a list sorted ascending by publish date, so
`Push` is ordered insertion and `Pop` removes the head. -/
def pushBounded (limit : Nat) (h : List CVERec) (x : CVERec) : List CVERec :=
  let h' := h.orderedInsert dateLE x
  if limit < h'.length then h'.tail else h'

/-- The fallback path of `Index.ListLatest`: iterate the store values in
bucket order, skip entries whose bytes do not unmarshal, stream the rest
through the bounded min-heap, then drain ascending and reverse to get
descending order.  `vals` are the parse results of the stored bytes in
iteration order. -/
def listLatestFallback (limit : Nat) (vals : List (Option CVERec)) : List CVERec :=
  ((vals.filterMap id).foldl (pushBounded limit) []).reverse

/-- The Bleve sorted query contract (`SearchRequestOptions(q, limit, 0,
false)` sorted by `-cveMetadata.datePublished`): the ids of the indexed
documents, sorted descending by the indexed publish date, capped at
`limit`, in index-preserved order. -/
def sortedHits (sidx : List (String × Nat)) (limit : Nat) : List String :=
  ((List.insertionSort pairGE sidx).take limit).map Prod.fst

/-- State of the `ListLatest` query: the store maps each id to the parse
result of its stored bytes (`none` = unparsable), the search index maps
each indexed id to its indexed publish date. -/
structure LLState where
  store : List (String × Option CVERec)
  sidx : List (String × Nat)
deriving Repr

/-- `Index.ListLatest(limit)` from `internal/index/index.go`.  `limit <= 0`
defaults to 50 (the Go `int` is modelled as `Int`).  `bleveOk` injects
whether the sorted Bleve search itself succeeds; on success each hit is
resolved through the store and missing or unparsable entries are
skipped, otherwise the bounded-heap store scan runs. -/
def listLatest (bleveOk : Bool) (st : LLState) (limit0 : Int) : List CVERec :=
  let limit : Nat := if limit0 ≤ 0 then 50 else limit0.toNat
  if bleveOk then
    (sortedHits st.sidx limit).filterMap (fun id => (lookupA st.store id).bind (fun o => o))
  else
    listLatestFallback limit (st.store.map Prod.snd)

/-- The specification-side answer: the stored records sorted descending
by publish date, truncated to `k`. -/
def latestSpec (recs : List CVERec) (k : Nat) : List CVERec :=
  (List.insertionSort dateGE recs).take k

/-- The `LLState` in which every stored document parses and the index
entry of each id carries the record's own publish date: the state `Put`
builds for a list of records with distinct ids. -/
def canonState (recs : List CVERec) : LLState :=
  { store := recs.map (fun r => (r.cveId, some r))
    sidx := recs.map (fun r => (r.cveId, r.datePublished)) }

/-- Store/index consistency for the `ListLatest` state: every indexed id
whose stored bytes resolve to a record has its indexed date equal to
that record's publish date (the invariant the dual write maintains). -/
def llConsistent (st : LLState) : Prop :=
  ∀ p ∈ st.sidx, ∀ r : CVERec,
    (lookupA st.store p.1).bind (fun o => o) = some r → r.datePublished = p.2

/-- The position of one worker goroutine of `internal/worker/pool.go`:
blocked in its `select` (`idle`), running the processor on a task
(`working`), blocked sending that task's result (`sending`), or
returned (`exited`).  Tasks are identified by numbers. -/
inductive WState where
  | idle
  | working (t : Nat)
  | sending (t : Nat)
  | exited
deriving DecidableEq, Repr

/-- State of a started pool together with its `Stop` caller.  `stopStage`
tracks the progress of `Stop()`: `0` running, `1` after `p.cancel()`,
`2` after `close(p.tasks)`, `3` after `p.wg.Wait()` returned, `4` after
`close(p.results)`.  `accepted` lists the tasks handed to a worker (a
completed rendezvous on the unbuffered `tasks` channel), `delivered` the
results received from the `results` channel before it closed, flagged
`true` when the result carries the `pool is closed` error.  `panicked`
records a send on a closed channel. -/
structure PoolSt where
  workers : List WState
  stopStage : Nat
  accepted : List Nat
  delivered : List (Nat × Bool)
  panicked : Bool
deriving DecidableEq, Repr

/-- A freshly started pool of `n` workers (`NewPool` + `Start`). -/
def initPool (n : Nat) : PoolSt :=
  ⟨List.replicate n WState.idle, 0, [], [], false⟩

/-- The task a worker currently holds, if any. -/
def taskOf : WState → Option Nat
  | WState.working t => some t
  | WState.sending t => some t
  | _ => none

/-- Tasks accepted by some worker whose result has not been delivered. -/
def inFlight (ws : List WState) : List Nat :=
  ws.filterMap taskOf

/-- The delivered results that pair a processed task with its processor
error (dropping the `pool is closed` results emitted by late submits). -/
def realResults (d : List (Nat × Bool)) : List Nat :=
  d.filterMap (fun p => if p.2 then none else some p.1)

/-- One interleaving step of the pool protocol.  Worker steps pick a
worker by splitting the worker list as `l1 ++ w :: l2`.  Channel
semantics: a rendezvous on the unbuffered `tasks` channel needs a
selecting worker and an open channel; a send on a closed channel
panics; `close(p.results)` happens only after `wg.Wait()`, and the
result stream is drained by the consumer until it closes. -/
inductive PStep : PoolSt → PoolSt → Prop where
  | submitHandoff (l1 l2 : List WState) (stage : Nat) (acc : List Nat)
      (del : List (Nat × Bool)) (t : Nat) :
      stage ≤ 1 →
      PStep ⟨l1 ++ WState.idle :: l2, stage, acc, del, false⟩
        ⟨l1 ++ WState.working t :: l2, stage, acc ++ [t], del, false⟩
  | workerFinish (l1 l2 : List WState) (stage : Nat) (acc : List Nat)
      (del : List (Nat × Bool)) (t : Nat) :
      PStep ⟨l1 ++ WState.working t :: l2, stage, acc, del, false⟩
        ⟨l1 ++ WState.sending t :: l2, stage, acc, del, false⟩
  | workerDeliver (l1 l2 : List WState) (stage : Nat) (acc : List Nat)
      (del : List (Nat × Bool)) (t : Nat) :
      stage ≤ 3 →
      PStep ⟨l1 ++ WState.sending t :: l2, stage, acc, del, false⟩
        ⟨l1 ++ WState.idle :: l2, stage, acc, del ++ [(t, false)], false⟩
  | workerExitClosed (l1 l2 : List WState) (stage : Nat) (acc : List Nat)
      (del : List (Nat × Bool)) :
      2 ≤ stage →
      PStep ⟨l1 ++ WState.idle :: l2, stage, acc, del, false⟩
        ⟨l1 ++ WState.exited :: l2, stage, acc, del, false⟩
  | workerExitCancel (l1 l2 : List WState) (stage : Nat) (acc : List Nat)
      (del : List (Nat × Bool)) :
      1 ≤ stage →
      PStep ⟨l1 ++ WState.idle :: l2, stage, acc, del, false⟩
        ⟨l1 ++ WState.exited :: l2, stage, acc, del, false⟩
  | stopCancel (ws : List WState) (acc : List Nat) (del : List (Nat × Bool)) :
      PStep ⟨ws, 0, acc, del, false⟩ ⟨ws, 1, acc, del, false⟩
  | stopCloseTasks (ws : List WState) (acc : List Nat) (del : List (Nat × Bool)) :
      PStep ⟨ws, 1, acc, del, false⟩ ⟨ws, 2, acc, del, false⟩
  | stopAwait (ws : List WState) (acc : List Nat) (del : List (Nat × Bool)) :
      (∀ w ∈ ws, w = WState.exited) →
      PStep ⟨ws, 2, acc, del, false⟩ ⟨ws, 3, acc, del, false⟩
  | stopCloseResults (ws : List WState) (acc : List Nat) (del : List (Nat × Bool)) :
      PStep ⟨ws, 3, acc, del, false⟩ ⟨ws, 4, acc, del, false⟩
  | submitClosedOk (ws : List WState) (stage : Nat) (acc : List Nat)
      (del : List (Nat × Bool)) (t : Nat) :
      1 ≤ stage → stage ≤ 3 →
      PStep ⟨ws, stage, acc, del, false⟩ ⟨ws, stage, acc, del ++ [(t, true)], false⟩
  | submitClosedPanic (ws : List WState) (acc : List Nat)
      (del : List (Nat × Bool)) (t : Nat) :
      PStep ⟨ws, 4, acc, del, false⟩ ⟨ws, 4, acc, del, true⟩
  | submitSendPanic (ws : List WState) (stage : Nat) (acc : List Nat)
      (del : List (Nat × Bool)) (t : Nat) :
      2 ≤ stage →
      PStep ⟨ws, stage, acc, del, false⟩ ⟨ws, stage, acc, del, true⟩

/-- Reachability of a pool state from a freshly started pool of `n`
workers. -/
inductive PReach (n : Nat) : PoolSt → Prop where
  | init : PReach n (initPool n)
  | step {s s' : PoolSt} : PReach n s → PStep s s' → PReach n s'

/-- The accounting invariant of the pool: the accepted tasks are, as a
multiset, the processed results delivered so far plus the tasks still
held by workers; and once `wg.Wait()` has returned (stage 3), every
worker has exited. -/
def poolInv (s : PoolSt) : Prop :=
  s.accepted.Perm (realResults s.delivered ++ inFlight s.workers) ∧
  (3 ≤ s.stopStage → ∀ w ∈ s.workers, w = WState.exited)

/-- `e1` occurs strictly before `e2` in the trace `tr`. -/
def evBefore (tr : List Ev) (e1 e2 : Ev) : Prop :=
  tr.indexOf e1 < tr.indexOf e2

/-- Sample records and files used to instantiate the theorems. -/
def recA : CVERec := ⟨"CVE-A", 100, "alpha"⟩

def recB : CVERec := ⟨"CVE-B", 200, "beta"⟩

def recC : CVERec := ⟨"CVE-C", 300, "gamma"⟩

/-- A concrete parser: content `"a"`/`"b"`/`"c"` parses to the matching
record, anything else is malformed. -/
def parseTbl : String → Option CVERec := fun c =>
  if c = "a" then some recA
  else if c = "b" then some recB
  else if c = "c" then some recC
  else none

def fileA : FsFile := ⟨⟨"/data", "A.json"⟩, 10, 1, "a"⟩

def fileB : FsFile := ⟨⟨"/data", "B.json"⟩, 20, 2, "b"⟩

/-- A file whose content does not parse. -/
def fileBad : FsFile := ⟨⟨"/data", "bad.json"⟩, 30, 3, "zz"⟩

/-- A file in a different directory sharing `fileA`'s base name. -/
def fileA2 : FsFile := ⟨⟨"/data/sub", "A.json"⟩, 40, 4, "c"⟩

/-- The walk's extension filter: `filepath.Ext(path) == ".json"`. -/
def isJson (f : FsFile) : Bool := decide (extOf f.path.base = ".json")

/-- The "seen" set a walk over `fs` records: the paths of the visited
`.json` files, in walk order. -/
def seenPaths (fs : List FsFile) : List FPath :=
  (fs.filter (fun f => isJson f)).map (fun f => f.path)

/-- The state `indexFile` leaves behind on success: document stored and
indexed under `filepath.Base(path)`, file metadata overwritten with the
file's current `(modTime, size)` and that document id. -/
def indexedState (st : SyncState) (f : FsFile) (r : CVERec) : SyncState :=
  { store := updA st.store f.path.base r
    sidx := updA st.sidx f.path.base r
    fileMeta := updA st.fileMeta f.path ⟨f.modTime, f.size, f.path.base⟩ }

/-- The stored `FileMeta` for `f`'s path matches the file's current
`(modTime, size)` — the skip condition of `syncOnce`. -/
def metaMatches (st : SyncState) (f : FsFile) : Prop :=
  ∃ m, lookupA st.fileMeta f.path = some m ∧ m.modTime = f.modTime ∧ m.size = f.size

/-!  Theorems.  -/

theorem lookupA_updA_self {κ β : Type} [DecidableEq κ] (l : List (κ × β)) (k : κ) (v : β) :
    lookupA (updA l k v) k = some v := by
  induction l with
  | nil => simp [updA, lookupA]
  | cons p t ih =>
    obtain ⟨k0, v0⟩ := p
    by_cases h : k0 = k
    · simp [updA, h, lookupA]
    · simp [updA, h, lookupA, ih]

theorem lookupA_updA_ne {κ β : Type} [DecidableEq κ] (l : List (κ × β)) (k k' : κ) (v : β)
    (h : k' ≠ k) : lookupA (updA l k v) k' = lookupA l k' := by
  induction l with
  | nil => simp [updA, lookupA, Ne.symm h]
  | cons p t ih =>
    obtain ⟨k0, v0⟩ := p
    by_cases hp : k0 = k
    · subst hp
      simp [updA, lookupA, Ne.symm h]
    · by_cases hk' : k0 = k'
      · subst hk'
        simp [updA, hp, lookupA]
      · simp [updA, hp, lookupA, hk', ih]

theorem lookupA_eraseA_self {κ β : Type} [DecidableEq κ] (l : List (κ × β)) (k : κ) :
    lookupA (eraseA l k) k = none := by
  induction l with
  | nil => simp [eraseA, lookupA]
  | cons p t ih =>
    obtain ⟨k0, v0⟩ := p
    by_cases h : k0 = k
    · simpa [eraseA, h] using ih
    · simp [eraseA, h, lookupA, ih]

theorem lookupA_eraseA_ne {κ β : Type} [DecidableEq κ] (l : List (κ × β)) (k k' : κ)
    (h : k' ≠ k) : lookupA (eraseA l k) k' = lookupA l k' := by
  induction l with
  | nil => simp [eraseA, lookupA]
  | cons p t ih =>
    obtain ⟨k0, v0⟩ := p
    by_cases hp : k0 = k
    · subst hp
      simp [eraseA, lookupA, Ne.symm h, ih]
    · by_cases hk' : k0 = k'
      · subst hk'
        simp [eraseA, hp, lookupA]
      · simp [eraseA, hp, lookupA, hk', ih]

/-- C1: `Put(id, document)` (`Index.Index`) writes the store first and
the search index second: a store failure returns the storage error with
the whole state (index *and* store) unchanged; an index failure after a
successful store write returns the indexing error with the index
unchanged while the store retains the document; on success both hold the
document.  `Delete(id)` (`Index.Delete`) deletes from the index first: an
index failure returns the indexing error with the state unchanged, so
the store entry is retained. -/
theorem C1_dual_write_ordering :
    (∀ (b : Bool) (st : SyncState) (id : String) (doc : CVERec),
      putDual true b st id doc = (Except.error (DWErr.storage "failed to store document"), st)) ∧
    (∀ (st : SyncState) (id : String) (doc : CVERec),
      (putDual false true st id doc).1 = Except.error (DWErr.indexing "failed to index document") ∧
      (putDual false true st id doc).2.sidx = st.sidx ∧
      lookupA (putDual false true st id doc).2.store id = some doc) ∧
    (∀ (st : SyncState) (id : String) (doc : CVERec),
      (putDual false false st id doc).1 = Except.ok () ∧
      lookupA (putDual false false st id doc).2.store id = some doc ∧
      lookupA (putDual false false st id doc).2.sidx id = some doc) ∧
    (∀ (b : Bool) (st : SyncState) (id : String),
      deleteDual true b st id = (Except.error (DWErr.indexing "failed to delete from index"), st)) := by
  refine ⟨fun b st id doc => rfl, fun st id doc => ?_, fun st id doc => ?_, fun b st id => rfl⟩
  · exact ⟨rfl, rfl, lookupA_updA_self _ _ _⟩
  · exact ⟨rfl, lookupA_updA_self _ _ _, lookupA_updA_self _ _ _⟩

/-- C8: `buildIndex` path repair: an index path equal to the base path is
relocated to the hidden `.index` subdirectory beneath the base path, the
same default applies to an empty index path, and the resolved index path
never equals the base path, for any configuration. -/
theorem joinPath_index_ne (base : String) : joinPath base ".index" ≠ base := by
  intro h
  have hlen := congrArg String.length h
  rw [joinPath, String.length_append, String.length_append] at hlen
  have h1 : ("/" : String).length = 1 := rfl
  have h2 : (".index" : String).length = 6 := rfl
  rw [h1, h2] at hlen
  omega

theorem resolveCollision_ne (base ip : String) : resolveCollision base ip ≠ base := by
  rw [resolveCollision]
  by_cases hb : ip = base
  · simpa [hb] using joinPath_index_ne base
  · rw [if_neg hb]
    exact hb

/-- C8: `buildIndex` path repair: an index path equal to the base path is
relocated to the hidden `.index` subdirectory beneath the base path, the
same default applies to an empty index path, and the resolved index path
never equals the base path, for any configuration. -/
theorem C8_index_path_collision :
    (∀ base : String, resolveIndexPath base base = joinPath base ".index") ∧
    (∀ base : String, resolveIndexPath base "" = joinPath base ".index") ∧
    (∀ base ip : String, resolveIndexPath base ip ≠ base) := by
  refine ⟨?_, ?_, fun base ip => resolveCollision_ne base _⟩
  · intro base
    by_cases hb : base = ""
    · subst hb
      rfl
    · rw [resolveIndexPath, if_neg hb, resolveCollision, if_pos rfl]
  · intro base
    rw [resolveIndexPath, if_pos rfl, resolveCollision, if_neg (joinPath_index_ne base)]

/-- C9: `NewIndex` recovery behaviour: a store-open failure returns an
error before the index is touched; an open failure with the
path-does-not-exist or index-meta-missing sentinel removes the whole
directory at the index path and creates a fresh index with the custom
date/id field mapping; any other open error closes the just-opened store
and returns an error (no removal, no creation). -/
theorem C9_newindex_recovery :
    (∀ (op : Option OpenErr) (co : Bool) (ip : String),
      newIndex false op co ip = (Except.error "failed to create store", [])) ∧
    (∀ ip : String,
      newIndex true (some OpenErr.pathDoesNotExist) true ip =
        (Except.ok (),
          [NewIdxEv.storeOpened, NewIdxEv.removedAll ip,
           NewIdxEv.createdNew ip customMapping])) ∧
    (∀ ip : String,
      newIndex true (some OpenErr.metaMissing) true ip =
        (Except.ok (),
          [NewIdxEv.storeOpened, NewIdxEv.removedAll ip,
           NewIdxEv.createdNew ip customMapping])) ∧
    (∀ (co : Bool) (ip : String),
      newIndex true (some OpenErr.other) co ip =
        (Except.error "failed to open index", [NewIdxEv.storeOpened, NewIdxEv.storeClosed])) := by
  refine ⟨fun op co ip => rfl, fun ip => by simp [newIndex], fun ip => by simp [newIndex],
    fun co ip => by simp [newIndex]⟩

theorem reindexLoop_all_ok (parse : String → Option CVERec) (l : List (String × String))
    (acc : List (String × CVERec)) (h : ∀ kv ∈ l, parse kv.2 ≠ none) :
    reindexLoop parse l acc =
      (Except.ok (),
        acc ++ l.filterMap (fun kv => (parse kv.2).map (fun d => (kv.1, d)))) := by
  induction l generalizing acc with
  | nil => simp [reindexLoop]
  | cons kv t ih =>
    obtain ⟨k, v⟩ := kv
    obtain ⟨d, hd⟩ := Option.ne_none_iff_exists'.mp (h (k, v) (List.mem_cons_self _ _))
    simp only [reindexLoop, hd]
    rw [ih (acc ++ [(k, d)]) (fun kv hkv => h kv (List.mem_cons_of_mem _ hkv))]
    simp [hd]

theorem reindexLoop_abort (parse : String → Option CVERec) (pre : List (String × String))
    (x : String × String) (post : List (String × String)) (acc : List (String × CVERec))
    (hpre : ∀ kv ∈ pre, parse kv.2 ≠ none) (hx : parse x.2 = none) :
    reindexLoop parse (pre ++ x :: post) acc =
      (Except.error "failed to unmarshal document",
        acc ++ pre.filterMap (fun kv => (parse kv.2).map (fun d => (kv.1, d)))) := by
  induction pre generalizing acc with
  | nil =>
    obtain ⟨xk, xv⟩ := x
    simp only [List.nil_append, reindexLoop]
    rw [hx]
    simp
  | cons kv t ih =>
    obtain ⟨k, v⟩ := kv
    obtain ⟨d, hd⟩ := Option.ne_none_iff_exists'.mp (hpre (k, v) (List.mem_cons_self _ _))
    simp only [List.cons_append, reindexLoop, hd, List.append_eq]
    rw [ih (acc ++ [(k, d)]) (fun kv hkv => hpre kv (List.mem_cons_of_mem _ hkv))]
    simp [hd]

/-- C6 counterexample: with a three-document store whose middle document
does not re-parse, `Reindex` does *not* continue past it: it returns the
unmarshal error and the third (parseable) document is missing from the
rebuilt index, contradicting "logs and continues past that document,
skipping it" and "documents that parse are all re-submitted". -/
theorem C6_counterexample :
    reindex true true true parseTbl [("a", "a"), ("bad", "zz"), ("c", "c")] =
      (Except.error "failed to unmarshal document", some [("a", recA)]) := by
  rfl

/-- C6 (amended): `Reindex` fails fatally when the old index cannot be
closed or removed or the new one cannot be created; when every stored
document re-parses, all are re-submitted to the new index; but a
document that fails to re-parse *aborts* the rebuild iteration with the
unmarshal error — documents before it (in iteration order) have been
re-submitted, documents after it are skipped. -/
theorem C6_reindex_abort_behaviour :
    (∀ (co cr : Bool) (parse : String → Option CVERec) (store : List (String × String)),
      reindex false co cr parse store = (Except.error "failed to close index", none)) ∧
    (∀ (cr : Bool) (parse : String → Option CVERec) (store : List (String × String)),
      reindex true false cr parse store =
        (Except.error "failed to remove existing index", none)) ∧
    (∀ (parse : String → Option CVERec) (store : List (String × String)),
      reindex true true false parse store = (Except.error "failed to create new index", none)) ∧
    (∀ (parse : String → Option CVERec) (store : List (String × String)),
      (∀ kv ∈ store, parse kv.2 ≠ none) →
      reindex true true true parse store =
        (Except.ok (),
          some (store.filterMap (fun kv => (parse kv.2).map (fun d => (kv.1, d)))))) ∧
    (∀ (parse : String → Option CVERec) (pre : List (String × String))
        (x : String × String) (post : List (String × String)),
      (∀ kv ∈ pre, parse kv.2 ≠ none) → parse x.2 = none →
      reindex true true true parse (pre ++ x :: post) =
        (Except.error "failed to unmarshal document",
          some (pre.filterMap (fun kv => (parse kv.2).map (fun d => (kv.1, d)))))) := by
  refine ⟨fun co cr parse store => rfl, fun cr parse store => rfl, fun parse store => rfl,
    fun parse store h => ?_, fun parse pre x post hpre hx => ?_⟩
  · show ((reindexLoop parse store []).1, some (reindexLoop parse store []).2) = _
    rw [reindexLoop_all_ok parse store [] h]
    simp
  · show ((reindexLoop parse (pre ++ x :: post) []).1,
      some (reindexLoop parse (pre ++ x :: post) []).2) = _
    rw [reindexLoop_abort parse pre x post [] hpre hx]
    simp

/-- C6 amended witness: the abort branch evaluated at the concrete
three-document store. -/
theorem C6_reindex_abort_behaviour_witness :
    reindex true true true parseTbl [("a", "a"), ("bad", "zz"), ("c", "c")] =
      (Except.error "failed to unmarshal document", some [("a", recA)]) := by
  have h := C6_reindex_abort_behaviour.2.2.2.2 parseTbl [("a", "a")] ("bad", "zz") [("c", "c")]
    (by intro kv hkv; simp at hkv; subst hkv; simp [parseTbl]) (by rfl)
  simpa [parseTbl, recA] using h

/-- C7 counterexample: in the per-file indexing sequence of `indexFile`,
the `FileMeta` update does *not* precede the store write — evaluated on a
concrete file, the `metaSet` event comes after the `storePut` event. -/
theorem C7_counterexample :
    ¬ evBefore (indexFile parseTbl fileA emptyState).2
        (Ev.metaSet fileA.path) (Ev.storePut "A.json") := by
  unfold evBefore
  decide

/-- C7 (amended): for every file that is (re)indexed, the per-file
sequence is: store write, then index submission, then the `FileMeta`
update — the metadata write comes *last*, after the document is visible
in the DocumentStore, not before it. -/
theorem C7_put_order (parse : String → Option CVERec) (f : FsFile) (st : SyncState)
    (r : CVERec) (h : parse f.content = some r) :
    (indexFile parse f st).2 =
      [Ev.statOk, Ev.readOk, Ev.parseOk, Ev.storePut f.path.base, Ev.indexPut f.path.base,
       Ev.metaSet f.path] ∧
    (indexFile parse f st).2.get? 3 = some (Ev.storePut f.path.base) ∧
    (indexFile parse f st).2.get? 4 = some (Ev.indexPut f.path.base) ∧
    (indexFile parse f st).2.get? 5 = some (Ev.metaSet f.path) := by
  refine ⟨?_, ?_, ?_, ?_⟩ <;> (rw [indexFile, h]; try rfl)

/-- C7 amended witness: the ordering evaluated on the concrete file. -/
theorem C7_put_order_witness :
    (indexFile parseTbl fileA emptyState).2 =
      [Ev.statOk, Ev.readOk, Ev.parseOk, Ev.storePut fileA.path.base,
       Ev.indexPut fileA.path.base, Ev.metaSet fileA.path] ∧
    (indexFile parseTbl fileA emptyState).2.get? 3 = some (Ev.storePut fileA.path.base) ∧
    (indexFile parseTbl fileA emptyState).2.get? 4 = some (Ev.indexPut fileA.path.base) ∧
    (indexFile parseTbl fileA emptyState).2.get? 5 = some (Ev.metaSet fileA.path) :=
  C7_put_order parseTbl fileA emptyState recA rfl

theorem mem_eraseA {κ β : Type} [DecidableEq κ] (l : List (κ × β)) (k : κ) (pm : κ × β) :
    pm ∈ eraseA l k ↔ pm ∈ l ∧ pm.1 ≠ k := by
  induction l with
  | nil => simp [eraseA]
  | cons q t ih =>
    obtain ⟨k0, v0⟩ := q
    by_cases h : k0 = k
    · subst h
      rw [eraseA, if_pos rfl]
      constructor
      · intro hm
        obtain ⟨hm1, hm2⟩ := ih.mp hm
        exact ⟨List.mem_cons_of_mem _ hm1, hm2⟩
      · rintro ⟨hm, hne⟩
        rcases List.mem_cons.mp hm with he | ht
        · exact absurd (congrArg Prod.fst he) hne
        · exact ih.mpr ⟨ht, hne⟩
    · rw [eraseA, if_neg h]
      constructor
      · intro hm
        rcases List.mem_cons.mp hm with he | ht
        · subst he
          exact ⟨List.mem_cons_self _ _, h⟩
        · obtain ⟨hm1, hm2⟩ := ih.mp ht
          exact ⟨List.mem_cons_of_mem _ hm1, hm2⟩
      · rintro ⟨hm, hne⟩
        rcases List.mem_cons.mp hm with he | ht
        · subst he
          exact List.mem_cons_self _ _
        · exact List.mem_cons_of_mem _ (ih.mpr ⟨ht, hne⟩)

theorem lookupA_eraseA_none {κ β : Type} [DecidableEq κ] (l : List (κ × β)) (k p : κ)
    (h : lookupA l p = none) : lookupA (eraseA l k) p = none := by
  by_cases hk : p = k
  · subst hk
    exact lookupA_eraseA_self l p
  · rw [lookupA_eraseA_ne l k p hk]
    exact h

theorem lookupA_foldl_eraseA_none {κ β γ : Type} [DecidableEq κ] (key : γ → κ)
    (L : List γ) (l : List (κ × β)) (p : κ) (h : lookupA l p = none) :
    lookupA (L.foldl (fun acc g => eraseA acc (key g)) l) p = none := by
  induction L generalizing l with
  | nil => exact h
  | cons g t ih => exact ih _ (lookupA_eraseA_none l (key g) p h)

theorem lookupA_foldl_eraseA_of_mem {κ β γ : Type} [DecidableEq κ] (key : γ → κ)
    (L : List γ) (l : List (κ × β)) (p : κ) (h : p ∈ L.map key) :
    lookupA (L.foldl (fun acc g => eraseA acc (key g)) l) p = none := by
  induction L generalizing l with
  | nil => simp at h
  | cons g t ih =>
    rw [List.map_cons] at h
    rcases List.mem_cons.mp h with he | ht
    · subst he
      exact lookupA_foldl_eraseA_none key t _ _ (lookupA_eraseA_self l _)
    · exact ih _ ht

theorem lookupA_foldl_eraseA_of_not_mem {κ β γ : Type} [DecidableEq κ] (key : γ → κ)
    (L : List γ) (l : List (κ × β)) (p : κ) (h : p ∉ L.map key) :
    lookupA (L.foldl (fun acc g => eraseA acc (key g)) l) p = lookupA l p := by
  induction L generalizing l with
  | nil => rfl
  | cons g t ih =>
    have h1 : p ≠ key g := fun he => h (by simp [he])
    have h2 : p ∉ t.map key := fun ht => h (by simp [ht])
    rw [List.foldl_cons, ih (eraseA l (key g)) h2, lookupA_eraseA_ne l (key g) p h1]

theorem mem_foldl_eraseA {κ β γ : Type} [DecidableEq κ] (key : γ → κ)
    (L : List γ) (l : List (κ × β)) (pm : κ × β)
    (h : pm ∈ L.foldl (fun acc g => eraseA acc (key g)) l) :
    pm ∈ l ∧ pm.1 ∉ L.map key := by
  induction L generalizing l with
  | nil => exact ⟨h, by simp⟩
  | cons g t ih =>
    obtain ⟨h1, h2⟩ := ih _ h
    obtain ⟨h3, h4⟩ := (mem_eraseA l (key g) pm).mp h1
    refine ⟨h3, ?_⟩
    simp only [List.map_cons, List.mem_cons]
    rintro (he | ht)
    · exact h4 he
    · exact h2 ht

theorem foldl_dropStale_fileMeta (L : List (FPath × FileMeta)) (st : SyncState) :
    (L.foldl dropStale st).fileMeta =
      L.foldl (fun acc pm => eraseA acc pm.1) st.fileMeta := by
  induction L generalizing st with
  | nil => rfl
  | cons pm t ih => rw [List.foldl_cons, List.foldl_cons, ih]; rfl

theorem foldl_dropStale_store (L : List (FPath × FileMeta)) (st : SyncState) :
    (L.foldl dropStale st).store =
      L.foldl (fun acc pm => eraseA acc pm.2.docID) st.store := by
  induction L generalizing st with
  | nil => rfl
  | cons pm t ih => rw [List.foldl_cons, List.foldl_cons, ih]; rfl

theorem foldl_dropStale_sidx (L : List (FPath × FileMeta)) (st : SyncState) :
    (L.foldl dropStale st).sidx =
      L.foldl (fun acc pm => eraseA acc pm.2.docID) st.sidx := by
  induction L generalizing st with
  | nil => rfl
  | cons pm t ih => rw [List.foldl_cons, List.foldl_cons, ih]; rfl

theorem metaOk_eq_true_iff (st : SyncState) (f : FsFile) :
    metaOk st f = true ↔ metaMatches st f := by
  rw [metaOk, metaMatches]
  cases hm : lookupA st.fileMeta f.path with
  | none => simp
  | some m =>
    simp only [Bool.and_eq_true, decide_eq_true_eq]
    constructor
    · rintro ⟨h1, h2⟩
      exact ⟨m, rfl, h1, h2⟩
    · rintro ⟨m', hm', h1, h2⟩
      cases Option.some.inj hm'
      exact ⟨h1, h2⟩

theorem indexFile_ok (parse : String → Option CVERec) (f : FsFile) (st : SyncState)
    (r : CVERec) (h : parse f.content = some r) :
    indexFile parse f st =
      (Except.ok (indexedState st f r),
        [Ev.statOk, Ev.readOk, Ev.parseOk, Ev.storePut f.path.base, Ev.indexPut f.path.base,
         Ev.metaSet f.path]) := by
  simp [indexFile, h, indexedState]

theorem indexFile_err (parse : String → Option CVERec) (f : FsFile) (st : SyncState)
    (h : parse f.content = none) :
    indexFile parse f st = (Except.error "failed to parse JSON", [Ev.statOk, Ev.readOk]) := by
  simp [indexFile, h]

theorem walkFiles_cons_nonjson (parse : String → Option CVERec) (f : FsFile)
    (rest : List FsFile) (st : SyncState) (seen : List FPath) (p : Nat) (e : List String)
    (h : ¬ extOf f.path.base = ".json") :
    walkFiles parse (f :: rest) st seen p e = walkFiles parse rest st seen p e := by
  rw [walkFiles, if_pos h]

theorem walkFiles_cons_skip (parse : String → Option CVERec) (f : FsFile)
    (rest : List FsFile) (st : SyncState) (seen : List FPath) (p : Nat) (e : List String)
    (hj : extOf f.path.base = ".json") (hm : metaOk st f = true) :
    walkFiles parse (f :: rest) st seen p e =
      walkFiles parse rest st (seen ++ [f.path]) p e := by
  rw [walkFiles, if_neg (by simp [hj])]
  simp [hm]

theorem walkFiles_cons_index (parse : String → Option CVERec) (f : FsFile)
    (rest : List FsFile) (st : SyncState) (seen : List FPath) (p : Nat) (e : List String)
    (r : CVERec) (hj : extOf f.path.base = ".json") (hm : metaOk st f = false)
    (hp : parse f.content = some r) :
    walkFiles parse (f :: rest) st seen p e =
      walkFiles parse rest (indexedState st f r) (seen ++ [f.path]) (p + 1) e := by
  rw [walkFiles, if_neg (by simp [hj])]
  simp only [hm, Bool.false_eq_true, if_false, indexFile_ok parse f st r hp]

theorem walkFiles_cons_index_err (parse : String → Option CVERec) (f : FsFile)
    (rest : List FsFile) (st : SyncState) (seen : List FPath) (p : Nat) (e : List String)
    (hj : extOf f.path.base = ".json") (hm : metaOk st f = false)
    (hp : parse f.content = none) :
    walkFiles parse (f :: rest) st seen p e =
      walkFiles parse rest st (seen ++ [f.path]) (p + 1) (e ++ ["failed to parse JSON"]) := by
  rw [walkFiles, if_neg (by simp [hj])]
  simp only [hm, Bool.false_eq_true, if_false, indexFile_err parse f st hp]

theorem walkFiles_seen (parse : String → Option CVERec) (fs : List FsFile) (st : SyncState)
    (seen : List FPath) (p : Nat) (e : List String) :
    (walkFiles parse fs st seen p e).2.1 = seen ++ seenPaths fs := by
  induction fs generalizing st seen p e with
  | nil => simp [walkFiles, seenPaths]
  | cons f rest ih =>
    by_cases hj : extOf f.path.base = ".json"
    · have hsp : seenPaths (f :: rest) = f.path :: seenPaths rest := by
        simp [seenPaths, List.filter_cons, isJson, hj]
      by_cases hm : metaOk st f = true
      · rw [walkFiles_cons_skip parse f rest st seen p e hj hm, ih, hsp]
        simp
      · rw [Bool.not_eq_true] at hm
        cases hp : parse f.content with
        | some r =>
          rw [walkFiles_cons_index parse f rest st seen p e r hj hm hp, ih, hsp]
          simp
        | none =>
          rw [walkFiles_cons_index_err parse f rest st seen p e hj hm hp, ih, hsp]
          simp
    · have hsp : seenPaths (f :: rest) = seenPaths rest := by
        simp [seenPaths, List.filter_cons, isJson, hj]
      rw [walkFiles_cons_nonjson parse f rest st seen p e hj, ih, hsp]

theorem walkFiles_meta_untouched (parse : String → Option CVERec) (fs : List FsFile)
    (st : SyncState) (seen : List FPath) (p : Nat) (e : List String) (q : FPath)
    (h : ∀ f ∈ fs, f.path ≠ q) :
    lookupA (walkFiles parse fs st seen p e).1.fileMeta q = lookupA st.fileMeta q := by
  induction fs generalizing st seen p e with
  | nil => rfl
  | cons f rest ih =>
    have hf : f.path ≠ q := h f (List.mem_cons_self _ _)
    have hrest : ∀ g ∈ rest, g.path ≠ q := fun g hg => h g (List.mem_cons_of_mem _ hg)
    by_cases hj : extOf f.path.base = ".json"
    · by_cases hm : metaOk st f = true
      · rw [walkFiles_cons_skip parse f rest st seen p e hj hm, ih _ _ _ _ hrest]
      · rw [Bool.not_eq_true] at hm
        cases hp : parse f.content with
        | some r =>
          rw [walkFiles_cons_index parse f rest st seen p e r hj hm hp, ih _ _ _ _ hrest]
          exact lookupA_updA_ne st.fileMeta f.path q _ (Ne.symm hf)
        | none =>
          rw [walkFiles_cons_index_err parse f rest st seen p e hj hm hp, ih _ _ _ _ hrest]
    · rw [walkFiles_cons_nonjson parse f rest st seen p e hj, ih _ _ _ _ hrest]

theorem walkFiles_noop (parse : String → Option CVERec) (fs : List FsFile) (st : SyncState)
    (seen : List FPath) (p : Nat) (e : List String)
    (h : ∀ f ∈ fs, isJson f = true → metaOk st f = true) :
    walkFiles parse fs st seen p e = (st, seen ++ seenPaths fs, p, e) := by
  induction fs generalizing seen with
  | nil => simp [walkFiles, seenPaths]
  | cons f rest ih =>
    have hrest : ∀ g ∈ rest, isJson g = true → metaOk st g = true :=
      fun g hg => h g (List.mem_cons_of_mem _ hg)
    by_cases hj : extOf f.path.base = ".json"
    · have hsp : seenPaths (f :: rest) = f.path :: seenPaths rest := by
        simp [seenPaths, List.filter_cons, isJson, hj]
      have hm := h f (List.mem_cons_self _ _) (by simp [isJson, hj])
      rw [walkFiles_cons_skip parse f rest st seen p e hj hm, ih (seen ++ [f.path]) hrest, hsp]
      simp
    · have hsp : seenPaths (f :: rest) = seenPaths rest := by
        simp [seenPaths, List.filter_cons, isJson, hj]
      rw [walkFiles_cons_nonjson parse f rest st seen p e hj, ih seen hrest, hsp]

theorem walkFiles_meta_match (parse : String → Option CVERec) (fs : List FsFile)
    (st : SyncState) (seen : List FPath) (p : Nat) (e : List String)
    (hnd : fs.Pairwise (fun a b => a.path ≠ b.path))
    (hp : ∀ f ∈ fs, isJson f = true → parse f.content ≠ none) :
    ∀ f ∈ fs, isJson f = true → metaMatches (walkFiles parse fs st seen p e).1 f := by
  induction fs generalizing st seen p e with
  | nil =>
    intro f hf
    simp at hf
  | cons g rest ih =>
    intro f hf hjf
    have hgr := (List.pairwise_cons.mp hnd).1
    have hndr := (List.pairwise_cons.mp hnd).2
    have hpr : ∀ x ∈ rest, isJson x = true → parse x.content ≠ none :=
      fun x hx => hp x (List.mem_cons_of_mem _ hx)
    have hun : ∀ x ∈ rest, x.path ≠ g.path := fun x hx => Ne.symm (hgr x hx)
    by_cases hjg : extOf g.path.base = ".json"
    · by_cases hm : metaOk st g = true
      · rw [walkFiles_cons_skip parse g rest st seen p e hjg hm]
        rcases List.mem_cons.mp hf with he | hfr
        · subst he
          obtain ⟨m, hm1, hm2, hm3⟩ := (metaOk_eq_true_iff st f).mp hm
          refine ⟨m, ?_, hm2, hm3⟩
          rw [walkFiles_meta_untouched parse rest st _ _ _ f.path hun]
          exact hm1
        · exact ih st (seen ++ [g.path]) p e hndr hpr f hfr hjf
      · rw [Bool.not_eq_true] at hm
        cases hpg : parse g.content with
        | none =>
          exact absurd hpg (hp g (List.mem_cons_self _ _) (by simp [isJson, hjg]))
        | some r =>
          rw [walkFiles_cons_index parse g rest st seen p e r hjg hm hpg]
          rcases List.mem_cons.mp hf with he | hfr
          · subst he
            refine ⟨⟨f.modTime, f.size, f.path.base⟩, ?_, rfl, rfl⟩
            rw [walkFiles_meta_untouched parse rest _ _ _ _ f.path hun]
            exact lookupA_updA_self st.fileMeta f.path _
          · exact ih (indexedState st g r) (seen ++ [g.path]) (p + 1) e hndr hpr f hfr hjf
    · rw [walkFiles_cons_nonjson parse g rest st seen p e hjg]
      rcases List.mem_cons.mp hf with he | hfr
      · subst he
        exact absurd (by simpa [isJson] using hjf) hjg
      · exact ih st seen p e hndr hpr f hfr hjf

theorem reconcile_noop (fs : List FsFile) (seen : List FPath) (st : SyncState)
    (h : ∀ pm ∈ st.fileMeta, pm.1 ∈ seen ∨ fileExists fs pm.1 = true) :
    reconcile fs seen st = st := by
  rw [reconcile]
  have hnil : st.fileMeta.filter (fun pm => decide (pm.1 ∉ seen) && !fileExists fs pm.1) = [] := by
    rw [List.filter_eq_nil_iff]
    intro pm hpm
    rcases h pm hpm with hs | he
    · simp [hs]
    · simp [he]
  rw [hnil]
  rfl

theorem reconcile_lookup_seen (fs : List FsFile) (seen : List FPath) (st : SyncState)
    (p : FPath) (h : p ∈ seen) :
    lookupA (reconcile fs seen st).fileMeta p = lookupA st.fileMeta p := by
  rw [reconcile, foldl_dropStale_fileMeta]
  apply lookupA_foldl_eraseA_of_not_mem
  intro hmem
  obtain ⟨pm, hpm, hpe⟩ := List.mem_map.mp hmem
  have h2 := (List.mem_filter.mp hpm).2
  simp only [Bool.and_eq_true, decide_eq_true_eq] at h2
  exact h2.1 (hpe ▸ h)

theorem reconcile_lookup_exists (fs : List FsFile) (seen : List FPath) (st : SyncState)
    (p : FPath) (hex : fileExists fs p = true) :
    lookupA (reconcile fs seen st).fileMeta p = lookupA st.fileMeta p := by
  rw [reconcile, foldl_dropStale_fileMeta]
  apply lookupA_foldl_eraseA_of_not_mem
  intro hmem
  obtain ⟨pm, hpm, hpe⟩ := List.mem_map.mp hmem
  have h2 := (List.mem_filter.mp hpm).2
  simp only [Bool.and_eq_true, Bool.not_eq_true'] at h2
  rw [hpe] at h2
  rw [h2.2] at hex
  exact Bool.false_ne_true hex

theorem reconcile_meta_mem (fs : List FsFile) (seen : List FPath) (st : SyncState)
    (pm : FPath × FileMeta) (h : pm ∈ (reconcile fs seen st).fileMeta) :
    pm ∈ st.fileMeta ∧ (pm.1 ∈ seen ∨ fileExists fs pm.1 = true) := by
  rw [reconcile, foldl_dropStale_fileMeta] at h
  obtain ⟨h1, h2⟩ := mem_foldl_eraseA Prod.fst _ _ _ h
  refine ⟨h1, ?_⟩
  by_contra hc
  push_neg at hc
  obtain ⟨hs, he⟩ := hc
  apply h2
  apply List.mem_map_of_mem
  refine List.mem_filter.mpr ⟨h1, ?_⟩
  have he' : fileExists fs pm.1 = false := Bool.not_eq_true (fileExists fs pm.1) ▸ he
  simp [hs, he']

theorem reconcile_erased (fs : List FsFile) (seen : List FPath) (st : SyncState)
    (pm : FPath × FileMeta) (hm : pm ∈ st.fileMeta) (hs : pm.1 ∉ seen)
    (he : fileExists fs pm.1 = false) :
    lookupA (reconcile fs seen st).fileMeta pm.1 = none ∧
    lookupA (reconcile fs seen st).sidx pm.2.docID = none ∧
    lookupA (reconcile fs seen st).store pm.2.docID = none := by
  have hstale : pm ∈ st.fileMeta.filter (fun q => decide (q.1 ∉ seen) && !fileExists fs q.1) :=
    List.mem_filter.mpr ⟨hm, by simp [hs, he]⟩
  refine ⟨?_, ?_, ?_⟩
  · rw [reconcile, foldl_dropStale_fileMeta]
    exact lookupA_foldl_eraseA_of_mem Prod.fst _ _ _ (List.mem_map_of_mem _ hstale)
  · rw [reconcile, foldl_dropStale_sidx]
    exact lookupA_foldl_eraseA_of_mem (fun q => q.2.docID) _ _ _ (List.mem_map_of_mem _ hstale)
  · rw [reconcile, foldl_dropStale_store]
    exact lookupA_foldl_eraseA_of_mem (fun q => q.2.docID) _ _ _ (List.mem_map_of_mem _ hstale)

theorem syncOnce_eq (parse : String → Option CVERec) (fs : List FsFile) (st : SyncState) :
    syncOnce parse fs st =
      { state := reconcile fs (seenPaths fs) (walkFiles parse fs st [] 0 []).1
        seen := seenPaths fs
        parses := (walkFiles parse fs st [] 0 []).2.2.1
        errs := (walkFiles parse fs st [] 0 []).2.2.2 } := by
  have hs := walkFiles_seen parse fs st [] 0 []
  rw [List.nil_append] at hs
  rw [syncOnce]
  simp [hs]

theorem syncOnce_meta_matched (parse : String → Option CVERec) (fs : List FsFile)
    (st : SyncState) (hnd : fs.Pairwise (fun a b => a.path ≠ b.path))
    (hp : ∀ f ∈ fs, isJson f = true → parse f.content ≠ none) :
    ∀ f ∈ fs, isJson f = true → metaOk (syncOnce parse fs st).state f = true := by
  intro f hf hj
  rw [syncOnce_eq]
  rw [metaOk_eq_true_iff]
  obtain ⟨m, h1, h2, h3⟩ := walkFiles_meta_match parse fs st [] 0 [] hnd hp f hf hj
  refine ⟨m, ?_, h2, h3⟩
  have hseen : f.path ∈ seenPaths fs :=
    List.mem_map_of_mem _ (List.mem_filter.mpr ⟨hf, hj⟩)
  show lookupA (reconcile fs (seenPaths fs) (walkFiles parse fs st [] 0 []).1).fileMeta
    f.path = some m
  rw [reconcile_lookup_seen _ _ _ _ hseen]
  exact h1

theorem syncOnce_idem (parse : String → Option CVERec) (fs : List FsFile) (st : SyncState)
    (hnd : fs.Pairwise (fun a b => a.path ≠ b.path))
    (hp : ∀ f ∈ fs, isJson f = true → parse f.content ≠ none) :
    syncOnce parse fs (syncOnce parse fs st).state =
      { state := (syncOnce parse fs st).state
        seen := seenPaths fs
        parses := 0
        errs := [] } := by
  have hcond : ∀ pm ∈ (syncOnce parse fs st).state.fileMeta,
      pm.1 ∈ seenPaths fs ∨ fileExists fs pm.1 = true := by
    intro pm hpm
    rw [syncOnce_eq] at hpm
    exact (reconcile_meta_mem fs (seenPaths fs) (walkFiles parse fs st [] 0 []).1 pm hpm).2
  have hw : walkFiles parse fs (syncOnce parse fs st).state [] 0 [] =
      ((syncOnce parse fs st).state, [] ++ seenPaths fs, 0, []) :=
    walkFiles_noop parse fs _ [] 0 [] (syncOnce_meta_matched parse fs st hnd hp)
  rw [syncOnce_eq parse fs (syncOnce parse fs st).state, hw]
  simp only []
  congr 1
  exact reconcile_noop fs (seenPaths fs) _ hcond

/-- C2 counterexample: a single file whose content fails to parse gets no
`FileMeta` entry, so a second sync pass over the unchanged filesystem
re-parses it — the parse counter of the second pass is 1, not 0, refuting
"running a sync pass twice in a row with no filesystem changes performs
zero re-parses in the second pass" (and, with it, the unconditional "the
file is parsed, Put is called, and the FileMeta entry is overwritten"
behaviour for mismatched files). -/
theorem C2_counterexample :
    (syncOnce parseTbl [fileBad] (syncOnce parseTbl [fileBad] emptyState).state).parses = 1 := by
  rfl

/-- C2 (amended): a visited `.json` file whose stored FileMeta matches
its current `(modTime, size)` is skipped — no re-parse, no Put, identical
continuation; a visited file with absent or mismatched FileMeta is
parsed, and *when parsing succeeds* `IndexManager.Put` runs and the
FileMeta entry is overwritten with the new `(modTime, size, docID)` (on
parse failure the error is recorded and neither happens).  Consequently,
when every visited file parses, running a sync pass twice in a row with
no filesystem changes performs zero re-parses in the second pass, leaves
the state unchanged and leaves `Count()` unchanged. -/
theorem C2_sync_idempotence :
    (∀ (parse : String → Option CVERec) (f : FsFile) (rest : List FsFile) (st : SyncState)
        (seen : List FPath) (p : Nat) (e : List String),
      extOf f.path.base = ".json" → metaOk st f = true →
      walkFiles parse (f :: rest) st seen p e =
        walkFiles parse rest st (seen ++ [f.path]) p e) ∧
    (∀ (parse : String → Option CVERec) (f : FsFile) (rest : List FsFile) (st : SyncState)
        (seen : List FPath) (p : Nat) (e : List String) (r : CVERec),
      extOf f.path.base = ".json" → metaOk st f = false → parse f.content = some r →
      walkFiles parse (f :: rest) st seen p e =
        walkFiles parse rest (indexedState st f r) (seen ++ [f.path]) (p + 1) e) ∧
    (∀ (parse : String → Option CVERec) (fs : List FsFile) (st : SyncState),
      fs.Pairwise (fun a b => a.path ≠ b.path) →
      (∀ f ∈ fs, isJson f = true → parse f.content ≠ none) →
      (syncOnce parse fs (syncOnce parse fs st).state).parses = 0 ∧
      (syncOnce parse fs (syncOnce parse fs st).state).state = (syncOnce parse fs st).state ∧
      countDocs (syncOnce parse fs (syncOnce parse fs st).state).state =
        countDocs (syncOnce parse fs st).state) := by
  refine ⟨walkFiles_cons_skip, walkFiles_cons_index, ?_⟩
  intro parse fs st hnd hp
  rw [syncOnce_idem parse fs st hnd hp]
  exact ⟨rfl, rfl, rfl⟩

/-- C2 amended witness: two well-formed files synced twice from the empty
state. -/
theorem C2_sync_idempotence_witness :
    (syncOnce parseTbl [fileA, fileB]
      (syncOnce parseTbl [fileA, fileB] emptyState).state).parses = 0 ∧
    (syncOnce parseTbl [fileA, fileB]
        (syncOnce parseTbl [fileA, fileB] emptyState).state).state =
      (syncOnce parseTbl [fileA, fileB] emptyState).state ∧
    countDocs (syncOnce parseTbl [fileA, fileB]
        (syncOnce parseTbl [fileA, fileB] emptyState).state).state =
      countDocs (syncOnce parseTbl [fileA, fileB] emptyState).state :=
  C2_sync_idempotence.2.2 parseTbl [fileA, fileB] emptyState (by decide) (by decide)

theorem syncOnce_single (parse : String → Option CVERec) (f : FsFile) (r : CVERec)
    (hj : extOf f.path.base = ".json") (hp : parse f.content = some r) :
    syncOnce parse [f] emptyState =
      { state := indexedState emptyState f r
        seen := [f.path]
        parses := 1
        errs := [] } := by
  have hsp : seenPaths [f] = [f.path] := by simp [seenPaths, isJson, hj]
  have hrec : reconcile [f] [f.path] (indexedState emptyState f r) =
      indexedState emptyState f r := by
    apply reconcile_noop
    intro pm hpm
    left
    have hpm' : pm = (f.path, ⟨f.modTime, f.size, f.path.base⟩) := by
      simpa [indexedState, emptyState, updA] using hpm
    rw [hpm']
    simp
  rw [syncOnce_eq, hsp, walkFiles_cons_index parse f [] emptyState [] 0 [] r hj rfl hp,
    walkFiles]
  simp [hrec]

/-- C3: after the walk of one sync pass, every stored FileMeta entry
whose path was not seen and whose file no longer exists is reconciled:
`IndexManager.Delete(docID)` removes the document from both the search
index and the store, and the FileMeta entry is removed; a not-seen path
whose file still exists keeps its FileMeta entry untouched.  In
particular, removing the only source file and running one sync pass
leaves `Count() = 0` and the FileMeta entry gone. -/
theorem C3_deletion_reconciliation :
    (∀ (fs : List FsFile) (seen : List FPath) (st : SyncState) (pm : FPath × FileMeta),
      pm ∈ st.fileMeta → pm.1 ∉ seen → fileExists fs pm.1 = false →
      lookupA (reconcile fs seen st).fileMeta pm.1 = none ∧
      lookupA (reconcile fs seen st).sidx pm.2.docID = none ∧
      lookupA (reconcile fs seen st).store pm.2.docID = none) ∧
    (∀ (fs : List FsFile) (seen : List FPath) (st : SyncState) (p : FPath),
      fileExists fs p = true →
      lookupA (reconcile fs seen st).fileMeta p = lookupA st.fileMeta p) ∧
    (∀ (parse : String → Option CVERec) (f : FsFile) (r : CVERec),
      extOf f.path.base = ".json" → parse f.content = some r →
      countDocs (syncOnce parse [] (syncOnce parse [f] emptyState).state).state = 0 ∧
      lookupA (syncOnce parse [] (syncOnce parse [f] emptyState).state).state.fileMeta
        f.path = none) := by
  refine ⟨fun fs seen st pm hm hs he => reconcile_erased fs seen st pm hm hs he,
    fun fs seen st p hex => reconcile_lookup_exists fs seen st p hex, ?_⟩
  intro parse f r hj hp
  rw [syncOnce_single parse f r hj hp]
  rw [syncOnce_eq parse [] _]
  simp [seenPaths, walkFiles, reconcile, fileExists, dropStale, indexedState, emptyState,
    updA, eraseA, countDocs, lookupA]

/-- C3 witness: the single-file deletion scenario on a concrete file, and
the generic reconciliation conjuncts at a concrete stale entry. -/
theorem C3_deletion_reconciliation_witness :
    countDocs (syncOnce parseTbl [] (syncOnce parseTbl [fileA] emptyState).state).state = 0 ∧
    lookupA (syncOnce parseTbl [] (syncOnce parseTbl [fileA] emptyState).state).state.fileMeta
      fileA.path = none :=
  C3_deletion_reconciliation.2.2 parseTbl fileA recA (by decide) (by decide)

/-- C10: the document identifier is `filepath.Base(path)` (extension
included): a successful `indexFile` stores and indexes under
`f.path.base` and writes the FileMeta with that `docID`; two files at
distinct paths with one shared base name collide on one document — the
one indexed later overwrites the other in both store and index, each
path keeps its own FileMeta entry, and when the first file disappears,
deletion reconciliation deletes the single shared document by that docID
(leaving the surviving path's FileMeta entry, and no document). -/
theorem C10_docid_is_basename :
    (∀ (parse : String → Option CVERec) (f : FsFile) (st : SyncState) (r : CVERec),
      parse f.content = some r →
      (indexFile parse f st).1 = Except.ok (indexedState st f r)) ∧
    (∀ (parse : String → Option CVERec) (f1 f2 : FsFile) (r1 r2 : CVERec),
      f1.path ≠ f2.path → f1.path.base = f2.path.base →
      extOf f1.path.base = ".json" → extOf f2.path.base = ".json" →
      parse f1.content = some r1 → parse f2.content = some r2 →
      lookupA (syncOnce parse [f1, f2] emptyState).state.store f2.path.base = some r2 ∧
      lookupA (syncOnce parse [f1, f2] emptyState).state.sidx f2.path.base = some r2 ∧
      lookupA (syncOnce parse [f1, f2] emptyState).state.fileMeta f1.path =
        some ⟨f1.modTime, f1.size, f1.path.base⟩ ∧
      lookupA (syncOnce parse [f1, f2] emptyState).state.fileMeta f2.path =
        some ⟨f2.modTime, f2.size, f2.path.base⟩ ∧
      lookupA (syncOnce parse [f2]
        (syncOnce parse [f1, f2] emptyState).state).state.sidx f2.path.base = none ∧
      lookupA (syncOnce parse [f2]
        (syncOnce parse [f1, f2] emptyState).state).state.store f2.path.base = none ∧
      lookupA (syncOnce parse [f2]
        (syncOnce parse [f1, f2] emptyState).state).state.fileMeta f1.path = none ∧
      lookupA (syncOnce parse [f2]
        (syncOnce parse [f1, f2] emptyState).state).state.fileMeta f2.path =
        some ⟨f2.modTime, f2.size, f2.path.base⟩) := by
  constructor
  · intro parse f st r hp
    rw [indexFile_ok parse f st r hp]
  · intro parse f1 f2 r1 r2 hne hbase hj1 hj2 hp1 hp2
    have hm1 : metaOk emptyState f1 = false := rfl
    have hm2 : metaOk (indexedState emptyState f1 r1) f2 = false := by
      simp [metaOk, indexedState, emptyState, updA, lookupA, hne]
    have hfm2 : (indexedState (indexedState emptyState f1 r1) f2 r2).fileMeta =
        [(f1.path, ⟨f1.modTime, f1.size, f1.path.base⟩),
         (f2.path, ⟨f2.modTime, f2.size, f2.path.base⟩)] := by
      simp [indexedState, emptyState, updA, hne]
    have hstore : (indexedState (indexedState emptyState f1 r1) f2 r2).store =
        [(f2.path.base, r2)] := by
      simp [indexedState, emptyState, updA, hbase]
    have hsidx : (indexedState (indexedState emptyState f1 r1) f2 r2).sidx =
        [(f2.path.base, r2)] := by
      simp [indexedState, emptyState, updA, hbase]
    have hw1 : walkFiles parse [f1, f2] emptyState [] 0 [] =
        (indexedState (indexedState emptyState f1 r1) f2 r2, [f1.path, f2.path], 2, []) := by
      rw [walkFiles_cons_index parse f1 [f2] emptyState [] 0 [] r1 hj1 hm1 hp1]
      simp only [List.nil_append, Nat.zero_add]
      rw [walkFiles_cons_index parse f2 [] (indexedState emptyState f1 r1) [f1.path] 1 []
        r2 hj2 hm2 hp2]
      rw [walkFiles]
      simp
    have hsp : seenPaths [f1, f2] = [f1.path, f2.path] := by
      simp [seenPaths, isJson, hj1, hj2]
    have hrec1 : reconcile [f1, f2] [f1.path, f2.path]
        (indexedState (indexedState emptyState f1 r1) f2 r2) =
        indexedState (indexedState emptyState f1 r1) f2 r2 := by
      apply reconcile_noop
      intro pm hpm
      left
      rw [hfm2] at hpm
      rcases List.mem_cons.mp hpm with he | hpm2
      · rw [he]
        simp
      · rcases List.mem_cons.mp hpm2 with he2 | h0
        · rw [he2]
          simp
        · simp at h0
    have hstate1 : (syncOnce parse [f1, f2] emptyState).state =
        indexedState (indexedState emptyState f1 r1) f2 r2 := by
      rw [syncOnce_eq, hsp, hw1]
      exact hrec1
    have hmOk : metaOk (indexedState (indexedState emptyState f1 r1) f2 r2) f2 = true := by
      rw [metaOk, hfm2]
      simp [lookupA, hne]
    have hw2 : walkFiles parse [f2] (indexedState (indexedState emptyState f1 r1) f2 r2)
        [] 0 [] =
        (indexedState (indexedState emptyState f1 r1) f2 r2, [f2.path], 0, []) := by
      rw [walkFiles_cons_skip parse f2 [] _ [] 0 [] hj2 hmOk, walkFiles]
      simp
    have hsp2 : seenPaths [f2] = [f2.path] := by
      simp [seenPaths, isJson, hj2]
    have hrec2 : reconcile [f2] [f2.path]
        (indexedState (indexedState emptyState f1 r1) f2 r2) =
        (⟨[], [], [(f2.path, ⟨f2.modTime, f2.size, f2.path.base⟩)]⟩ : SyncState) := by
      rw [reconcile, hfm2]
      have hpred : List.filter
          (fun pm => decide (pm.1 ∉ [f2.path]) && !fileExists [f2] pm.1)
          [(f1.path, (⟨f1.modTime, f1.size, f1.path.base⟩ : FileMeta)),
           (f2.path, ⟨f2.modTime, f2.size, f2.path.base⟩)] =
          [(f1.path, ⟨f1.modTime, f1.size, f1.path.base⟩)] := by
        simp [List.filter_cons, hne, Ne.symm hne, fileExists]
      rw [hpred]
      show dropStale (indexedState (indexedState emptyState f1 r1) f2 r2)
        (f1.path, ⟨f1.modTime, f1.size, f1.path.base⟩) = _
      rw [dropStale, hfm2, hstore, hsidx]
      simp [eraseA, hbase, Ne.symm hne]
    have hstate2 : (syncOnce parse [f2] (syncOnce parse [f1, f2] emptyState).state).state =
        (⟨[], [], [(f2.path, ⟨f2.modTime, f2.size, f2.path.base⟩)]⟩ : SyncState) := by
      rw [hstate1, syncOnce_eq, hsp2, hw2]
      exact hrec2
    refine ⟨?_, ?_, ?_, ?_, ?_, ?_, ?_, ?_⟩
    · rw [hstate1, hstore]
      simp [lookupA]
    · rw [hstate1, hsidx]
      simp [lookupA]
    · rw [hstate1, hfm2]
      simp [lookupA]
    · rw [hstate1, hfm2]
      simp [lookupA, hne]
    · rw [hstate2]
      rfl
    · rw [hstate2]
      rfl
    · rw [hstate2]
      simp [lookupA, Ne.symm hne]
    · rw [hstate2]
      simp [lookupA]

/-- C10 witness: two concrete files in different directories sharing the
base name `A.json`. -/
theorem C10_docid_is_basename_witness :
    lookupA (syncOnce parseTbl [fileA, fileA2] emptyState).state.store fileA2.path.base =
      some recC ∧
    lookupA (syncOnce parseTbl [fileA, fileA2] emptyState).state.sidx fileA2.path.base =
      some recC ∧
    lookupA (syncOnce parseTbl [fileA, fileA2] emptyState).state.fileMeta fileA.path =
      some ⟨fileA.modTime, fileA.size, fileA.path.base⟩ ∧
    lookupA (syncOnce parseTbl [fileA, fileA2] emptyState).state.fileMeta fileA2.path =
      some ⟨fileA2.modTime, fileA2.size, fileA2.path.base⟩ ∧
    lookupA (syncOnce parseTbl [fileA2]
      (syncOnce parseTbl [fileA, fileA2] emptyState).state).state.sidx fileA2.path.base =
      none ∧
    lookupA (syncOnce parseTbl [fileA2]
      (syncOnce parseTbl [fileA, fileA2] emptyState).state).state.store fileA2.path.base =
      none ∧
    lookupA (syncOnce parseTbl [fileA2]
      (syncOnce parseTbl [fileA, fileA2] emptyState).state).state.fileMeta fileA.path =
      none ∧
    lookupA (syncOnce parseTbl [fileA2]
      (syncOnce parseTbl [fileA, fileA2] emptyState).state).state.fileMeta fileA2.path =
      some ⟨fileA2.modTime, fileA2.size, fileA2.path.base⟩ :=
  C10_docid_is_basename.2 parseTbl fileA fileA2 recA recC (by decide) (by decide) (by decide)
    (by decide) (by decide) (by decide)

theorem orderedInsert_drop_tail (x : CVERec) (s : List CVERec) (hs : List.Sorted dateLE s) :
    ∀ k : Nat, (List.orderedInsert dateLE x (s.drop k)).tail =
      (List.orderedInsert dateLE x s).drop (k + 1) := by
  induction s with
  | nil =>
    intro k
    simp
  | cons b t ih =>
    intro k
    cases k with
    | zero =>
      rw [List.drop_zero, List.drop_one]
    | succ j =>
      rw [List.drop_succ_cons]
      by_cases hxb : dateLE x b
      · rw [List.orderedInsert_of_le _ _ hxb]
        have hgoal : (j + 1) + 1 = j + 2 := rfl
        rw [hgoal]
        show (List.orderedInsert dateLE x (t.drop j)).tail = (b :: t).drop (j + 1)
        rw [List.drop_succ_cons]
        cases htd : t.drop j with
        | nil => simp
        | cons c rest =>
          have hc : c ∈ t := (List.drop_sublist j t).mem (htd ▸ List.mem_cons_self c rest)
          have hbc : dateLE b c := List.rel_of_sorted_cons hs c hc
          have hxc : dateLE x c := Nat.le_trans hxb hbc
          rw [List.orderedInsert_of_le _ _ hxc]
          rfl
      · rw [List.orderedInsert, if_neg hxb]
        rw [List.drop_succ_cons]
        exact ih hs.of_cons j

theorem heapFold_eq (limit : Nat) (l : List CVERec) :
    l.foldl (pushBounded limit) [] =
      (List.insertionSort dateLE l.reverse).drop (l.length - limit) := by
  induction l using List.reverseRecOn with
  | nil => simp
  | append_singleton t x ih =>
    rw [List.foldl_append, List.foldl_cons, List.foldl_nil, ih]
    have hrev : (t ++ [x]).reverse = x :: t.reverse := by simp
    rw [hrev]
    have hS : List.insertionSort dateLE (x :: t.reverse) =
        List.orderedInsert dateLE x (List.insertionSort dateLE t.reverse) := rfl
    rw [hS]
    have hSlen : (List.insertionSort dateLE t.reverse).length = t.length := by
      rw [List.length_insertionSort, List.length_reverse]
    have hsorted : List.Sorted dateLE (List.insertionSort dateLE t.reverse) :=
      List.sorted_insertionSort dateLE t.reverse
    have hlapp : (t ++ [x]).length = t.length + 1 := by simp
    rw [pushBounded, hlapp]
    by_cases hlt : t.length < limit
    · have h0 : t.length - limit = 0 := Nat.sub_eq_zero_of_le (Nat.le_of_lt hlt)
      have h0' : t.length + 1 - limit = 0 := Nat.sub_eq_zero_of_le hlt
      rw [h0, h0', List.drop_zero, List.drop_zero]
      have hlen' : (List.orderedInsert dateLE x
          (List.insertionSort dateLE t.reverse)).length = t.length + 1 := by
        rw [List.orderedInsert_length, hSlen]
      rw [if_neg (by rw [hlen']; omega)]
    · have hle : limit ≤ t.length := Nat.le_of_not_lt hlt
      have hdroplen : ((List.insertionSort dateLE t.reverse).drop
          (t.length - limit)).length = limit := by
        rw [List.length_drop, hSlen]
        omega
      have hcond : limit < (List.orderedInsert dateLE x
          ((List.insertionSort dateLE t.reverse).drop (t.length - limit))).length := by
        rw [List.orderedInsert_length, hdroplen]
        omega
      rw [if_pos hcond]
      have hidx : t.length + 1 - limit = (t.length - limit) + 1 := by omega
      rw [hidx]
      exact orderedInsert_drop_tail x _ hsorted (t.length - limit)

theorem eq_of_perm_sorted_distinct (r : CVERec → CVERec → Prop)
    (hanti : ∀ a b : CVERec, r a b → r b a → a.datePublished = b.datePublished)
    (l1 : List CVERec) :
    ∀ l2 : List CVERec, l1.Perm l2 → List.Sorted r l1 → List.Sorted r l2 →
      l1.Pairwise (fun a b => a.datePublished ≠ b.datePublished) → l1 = l2 := by
  induction l1 with
  | nil =>
    intro l2 hp _ _ _
    exact hp.nil_eq
  | cons a t1 ih =>
    intro l2 hp hs1 hs2 hd
    cases l2 with
    | nil => exact absurd hp.length_eq (by simp)
    | cons b t2 =>
      have hab : a = b := by
        by_contra hne
        have ha2 : a ∈ b :: t2 := hp.mem_iff.mp (List.mem_cons_self a t1)
        have hb1 : b ∈ a :: t1 := hp.mem_iff.mpr (List.mem_cons_self b t2)
        have hat2 : a ∈ t2 := by
          rcases List.mem_cons.mp ha2 with h | h
          · exact absurd h hne
          · exact h
        have hbt1 : b ∈ t1 := by
          rcases List.mem_cons.mp hb1 with h | h
          · exact absurd h.symm hne
          · exact h
        have hr1 : r a b := List.rel_of_sorted_cons hs1 b hbt1
        have hr2 : r b a := List.rel_of_sorted_cons hs2 a hat2
        exact (List.pairwise_cons.mp hd).1 b hbt1 (hanti a b hr1 hr2)
      subst hab
      rw [ih t2 hp.cons_inv hs1.of_cons hs2.of_cons (List.pairwise_cons.mp hd).2]

/-- Publish-date-distinct lists have a unique ascending sort: sorting the
reversal equals sorting the list itself. -/
theorem insertionSort_reverse_eq (l : List CVERec)
    (hd : l.Pairwise (fun a b => a.datePublished ≠ b.datePublished)) :
    List.insertionSort dateLE l.reverse = List.insertionSort dateLE l := by
  have hsym : ∀ {x y : CVERec},
      x.datePublished ≠ y.datePublished → y.datePublished ≠ x.datePublished :=
    fun h => Ne.symm h
  have hperm : (List.insertionSort dateLE l.reverse).Perm (List.insertionSort dateLE l) :=
    ((List.perm_insertionSort dateLE l.reverse).trans (List.reverse_perm l)).trans
      (List.perm_insertionSort dateLE l).symm
  have hd1 : (List.insertionSort dateLE l.reverse).Pairwise
      (fun a b => a.datePublished ≠ b.datePublished) := by
    refine (List.Perm.pairwise_iff hsym ?_).mpr hd
    exact (List.perm_insertionSort dateLE l.reverse).trans (List.reverse_perm l)
  exact eq_of_perm_sorted_distinct dateLE
    (fun a b h1 h2 => Nat.le_antisymm h1 h2) _ _ hperm
    (List.sorted_insertionSort dateLE l.reverse) (List.sorted_insertionSort dateLE l) hd1

/-- Under distinct publish dates, the reversal of the ascending sort is
the descending sort. -/
theorem reverse_insertionSort_desc (l : List CVERec)
    (hd : l.Pairwise (fun a b => a.datePublished ≠ b.datePublished)) :
    (List.insertionSort dateLE l).reverse = List.insertionSort dateGE l := by
  have hsym : ∀ {x y : CVERec},
      x.datePublished ≠ y.datePublished → y.datePublished ≠ x.datePublished :=
    fun h => Ne.symm h
  have hperm : (List.insertionSort dateLE l).reverse.Perm (List.insertionSort dateGE l) :=
    (((List.insertionSort dateLE l).reverse_perm).trans
      (List.perm_insertionSort dateLE l)).trans (List.perm_insertionSort dateGE l).symm
  have hs1 : List.Sorted dateGE (List.insertionSort dateLE l).reverse := by
    rw [List.Sorted, List.pairwise_reverse]
    exact (List.sorted_insertionSort dateLE l).imp (fun h => h)
  have hd1 : (List.insertionSort dateLE l).reverse.Pairwise
      (fun a b => a.datePublished ≠ b.datePublished) := by
    refine (List.Perm.pairwise_iff hsym ?_).mpr hd
    exact ((List.insertionSort dateLE l).reverse_perm).trans (List.perm_insertionSort dateLE l)
  exact eq_of_perm_sorted_distinct dateGE
    (fun a b h1 h2 => Nat.le_antisymm h2 h1) _ _ hperm hs1
    (List.sorted_insertionSort dateGE l) hd1

theorem filterMap_id_map_some (l : List CVERec) :
    (l.map (fun r => (some r : Option CVERec))).filterMap id = l := by
  induction l with
  | nil => rfl
  | cons a t ih => simp [ih]

/-- The fallback path, characterized: it returns the most recent
`min(limit, N)` stored records.  General form over the parse results in
store order; unparsable entries are skipped before the heap fold. -/
theorem listLatestFallback_eq (limit : Nat) (vals : List (Option CVERec)) :
    listLatestFallback limit vals =
      ((List.insertionSort dateLE (vals.filterMap id).reverse).drop
        ((vals.filterMap id).length - limit)).reverse := by
  rw [listLatestFallback, heapFold_eq]

theorem listLatestFallback_length (limit : Nat) (vals : List (Option CVERec)) :
    (listLatestFallback limit vals).length ≤ limit := by
  rw [listLatestFallback_eq, List.length_reverse, List.length_drop,
    List.length_insertionSort, List.length_reverse]
  omega

theorem listLatestFallback_sorted (limit : Nat) (vals : List (Option CVERec)) :
    List.Sorted dateGE (listLatestFallback limit vals) := by
  rw [listLatestFallback_eq, List.Sorted, List.pairwise_reverse]
  exact (List.Pairwise.sublist (List.drop_sublist _ _)
    (List.sorted_insertionSort dateLE _)).imp (fun h => h)

theorem listLatestFallback_topk (recs : List CVERec) (limit : Nat)
    (hd : recs.Pairwise (fun a b => a.datePublished ≠ b.datePublished))
    (hn : limit ≤ recs.length) :
    listLatestFallback limit (recs.map (fun r => (some r : Option CVERec))) =
      latestSpec recs limit := by
  rw [listLatestFallback_eq, filterMap_id_map_some, insertionSort_reverse_eq recs hd,
    latestSpec, ← reverse_insertionSort_desc recs hd, List.reverse_drop]
  congr 1
  rw [List.length_insertionSort]
  omega

theorem map_orderedInsert_pair (x : CVERec) (l : List CVERec) :
    List.orderedInsert pairGE (x.cveId, x.datePublished)
      (l.map (fun r => (r.cveId, r.datePublished))) =
      (List.orderedInsert dateGE x l).map (fun r => (r.cveId, r.datePublished)) := by
  induction l with
  | nil => rfl
  | cons b t ih =>
    by_cases h : dateGE x b
    · rw [List.map_cons, List.orderedInsert_of_le _ _
        (show pairGE (x.cveId, x.datePublished) (b.cveId, b.datePublished) from h),
        List.orderedInsert_of_le _ _ h, List.map_cons, List.map_cons]
    · rw [List.map_cons, List.orderedInsert,
        if_neg (show ¬ pairGE (x.cveId, x.datePublished) (b.cveId, b.datePublished) from h),
        List.orderedInsert, if_neg h, List.map_cons, ih]

theorem insertionSort_map_pair (l : List CVERec) :
    List.insertionSort pairGE (l.map (fun r => (r.cveId, r.datePublished))) =
      (List.insertionSort dateGE l).map (fun r => (r.cveId, r.datePublished)) := by
  induction l with
  | nil => rfl
  | cons a t ih =>
    simp only [List.map_cons, List.insertionSort]
    rw [ih, map_orderedInsert_pair]

theorem lookupA_canon (recs : List CVERec)
    (hids : (recs.map (fun r => r.cveId)).Nodup) :
    ∀ r ∈ recs, lookupA (recs.map (fun r => (r.cveId, some r))) r.cveId = some (some r) := by
  induction recs with
  | nil =>
    intro r hr
    simp at hr
  | cons a t ih =>
    intro r hr
    rw [List.map_cons] at hids
    have hnd := List.nodup_cons.mp hids
    rcases List.mem_cons.mp hr with he | ht
    · subst he
      simp [lookupA]
    · have hne : a.cveId ≠ r.cveId := by
        intro he
        exact hnd.1 (he ▸ List.mem_map_of_mem (fun r => r.cveId) ht)
      simp only [List.map_cons, lookupA, if_neg hne]
      exact ih hnd.2 r ht

theorem filterMap_eq_map_of_forall {α β : Type} (g : α → Option β) (h : α → β) (l : List α)
    (hl : ∀ a ∈ l, g a = some (h a)) : l.filterMap g = l.map h := by
  induction l with
  | nil => rfl
  | cons a t ih =>
    rw [List.filterMap_cons, hl a (List.mem_cons_self _ _), List.map_cons,
      ih (fun a ha => hl a (List.mem_cons_of_mem _ ha))]

theorem sortedQuery_topk (recs : List CVERec) (limit : Nat)
    (hids : (recs.map (fun r => r.cveId)).Nodup) :
    (sortedHits (canonState recs).sidx limit).filterMap
      (fun id => (lookupA (canonState recs).store id).bind (fun o => o)) =
      latestSpec recs limit := by
  rw [sortedHits]
  simp only [canonState]
  rw [insertionSort_map_pair, ← List.map_take, List.map_map, List.filterMap_map]
  have hl : ∀ r ∈ (List.insertionSort dateGE recs).take limit,
      ((fun id => (lookupA (recs.map (fun r => (r.cveId, some r))) id).bind (fun o => o)) ∘
        (Prod.fst ∘ fun r => (r.cveId, r.datePublished))) r = some (id r) := by
    intro r hr
    have hrr : r ∈ recs :=
      (List.perm_insertionSort dateGE recs).subset ((List.take_sublist _ _).subset hr)
    show (lookupA (recs.map (fun r => (r.cveId, some r))) r.cveId).bind (fun o => o) = some r
    rw [lookupA_canon recs hids r hrr]
    rfl
  rw [filterMap_eq_map_of_forall _ id _ hl, List.map_id]
  rfl

theorem pref_length (st : LLState) (limit : Nat) :
    ((sortedHits st.sidx limit).filterMap
      (fun id => (lookupA st.store id).bind (fun o => o))).length ≤ limit := by
  refine Nat.le_trans (List.length_filterMap_le _ _) ?_
  rw [sortedHits, List.length_map]
  exact List.length_take_le _ _

theorem pref_sorted (st : LLState) (limit : Nat) (hc : llConsistent st) :
    List.Sorted dateGE ((sortedHits st.sidx limit).filterMap
      (fun id => (lookupA st.store id).bind (fun o => o))) := by
  rw [sortedHits, List.filterMap_map, List.Sorted]
  have hsorted : List.Pairwise pairGE ((List.insertionSort pairGE st.sidx).take limit) :=
    List.Pairwise.sublist (List.take_sublist _ _) (List.sorted_insertionSort pairGE st.sidx)
  refine List.pairwise_filterMap.mpr (List.Pairwise.imp_of_mem ?_ hsorted)
  intro p q hp hq hpq r hr r' hr'
  have hpmem : p ∈ st.sidx :=
    (List.perm_insertionSort pairGE st.sidx).subset ((List.take_sublist _ _).subset hp)
  have hqmem : q ∈ st.sidx :=
    (List.perm_insertionSort pairGE st.sidx).subset ((List.take_sublist _ _).subset hq)
  have h1 : r.datePublished = p.2 := hc p hpmem r (Option.mem_def.mp hr)
  have h2 : r'.datePublished = q.2 := hc q hqmem r' (Option.mem_def.mp hr')
  show r'.datePublished ≤ r.datePublished
  rw [h1, h2]
  exact hpq

theorem listLatest_true_eq (st : LLState) (limit0 : Int) (h : ¬ limit0 ≤ 0) :
    listLatest true st limit0 =
      (sortedHits st.sidx limit0.toNat).filterMap
        (fun id => (lookupA st.store id).bind (fun o => o)) := by
  rw [listLatest]
  simp [h]

theorem listLatest_false_eq (st : LLState) (limit0 : Int) (h : ¬ limit0 ≤ 0) :
    listLatest false st limit0 = listLatestFallback limit0.toNat (st.store.map Prod.snd) := by
  rw [listLatest]
  simp [h]

theorem canonState_consistent (recs : List CVERec)
    (hids : (recs.map (fun r => r.cveId)).Nodup) : llConsistent (canonState recs) := by
  intro p hp r hr
  obtain ⟨a, ha, hpa⟩ := List.mem_map.mp (by simpa [canonState] using hp)
  subst hpa
  rw [show (canonState recs).store = recs.map (fun r => (r.cveId, some r)) from rfl,
    lookupA_canon recs hids a ha] at hr
  simp at hr
  rw [← hr]

/-- C4: `ListLatest` functional correctness: a call with `limit <= 0`
behaves as a call with 50; for every positive limit the result has at
most `limit` documents in non-increasing publish-date order — on the
sorted-index path under the store/index consistency invariant, and on
the bounded min-heap fallback path unconditionally; and on a consistent
state built from N stored documents, with `k < N`, both paths return
exactly the k most recently published documents, most recent first
(equal to the descending sort truncated to k; the index path needs
distinct ids, the fallback path distinct publish dates). -/
theorem C4_listLatest :
    (∀ (bo : Bool) (st : LLState) (limit0 : Int), limit0 ≤ 0 →
      listLatest bo st limit0 = listLatest bo st 50) ∧
    (∀ (st : LLState) (limit0 : Int), 0 < limit0 → llConsistent st →
      (listLatest true st limit0).length ≤ limit0.toNat ∧
      List.Sorted dateGE (listLatest true st limit0)) ∧
    (∀ (st : LLState) (limit0 : Int), 0 < limit0 →
      (listLatest false st limit0).length ≤ limit0.toNat ∧
      List.Sorted dateGE (listLatest false st limit0)) ∧
    (∀ (recs : List CVERec) (k : Int), 0 < k → k.toNat < recs.length →
      (recs.map (fun r => r.cveId)).Nodup →
      listLatest true (canonState recs) k = latestSpec recs k.toNat) ∧
    (∀ (recs : List CVERec) (k : Int), 0 < k → k.toNat < recs.length →
      recs.Pairwise (fun a b => a.datePublished ≠ b.datePublished) →
      listLatest false (canonState recs) k = latestSpec recs k.toNat) := by
  refine ⟨?_, ?_, ?_, ?_, ?_⟩
  · intro bo st limit0 h
    rw [listLatest, listLatest]
    simp [h]
  · intro st limit0 h hc
    have hneg : ¬ limit0 ≤ 0 := not_le.mpr h
    rw [listLatest_true_eq st limit0 hneg]
    exact ⟨pref_length st limit0.toNat, pref_sorted st limit0.toNat hc⟩
  · intro st limit0 h
    have hneg : ¬ limit0 ≤ 0 := not_le.mpr h
    rw [listLatest_false_eq st limit0 hneg]
    exact ⟨listLatestFallback_length _ _, listLatestFallback_sorted _ _⟩
  · intro recs k hk hkn hids
    rw [listLatest_true_eq _ _ (not_le.mpr hk)]
    exact sortedQuery_topk recs k.toNat hids
  · intro recs k hk hkn hd
    rw [listLatest_false_eq _ _ (not_le.mpr hk)]
    have hmap : (canonState recs).store.map Prod.snd =
        recs.map (fun r => (some r : Option CVERec)) := by
      simp [canonState, List.map_map]
    rw [hmap]
    exact listLatestFallback_topk recs k.toNat hd (Nat.le_of_lt hkn)

/-- C4 witness: three records with distinct ids and dates; limit 2 on
both paths, plus the `limit <= 0` normalization and the bound/order
facts, at concrete inputs. -/
theorem C4_listLatest_witness :
    listLatest true (canonState [recA, recC, recB]) (-3) =
      listLatest true (canonState [recA, recC, recB]) 50 ∧
    (listLatest true (canonState [recA, recC, recB]) 2).length ≤ (2 : Int).toNat ∧
    List.Sorted dateGE (listLatest true (canonState [recA, recC, recB]) 2) ∧
    (listLatest false (canonState [recA, recC, recB]) 2).length ≤ (2 : Int).toNat ∧
    List.Sorted dateGE (listLatest false (canonState [recA, recC, recB]) 2) ∧
    listLatest true (canonState [recA, recC, recB]) 2 = latestSpec [recA, recC, recB] 2 ∧
    listLatest false (canonState [recA, recC, recB]) 2 = latestSpec [recA, recC, recB] 2 :=
  ⟨C4_listLatest.1 true (canonState [recA, recC, recB]) (-3) (by decide),
   (C4_listLatest.2.1 (canonState [recA, recC, recB]) 2 (by decide)
     (canonState_consistent [recA, recC, recB] (by decide))).1,
   (C4_listLatest.2.1 (canonState [recA, recC, recB]) 2 (by decide)
     (canonState_consistent [recA, recC, recB] (by decide))).2,
   (C4_listLatest.2.2.1 (canonState [recA, recC, recB]) 2 (by decide)).1,
   (C4_listLatest.2.2.1 (canonState [recA, recC, recB]) 2 (by decide)).2,
   C4_listLatest.2.2.2.1 [recA, recC, recB] 2 (by decide) (by decide) (by decide),
   C4_listLatest.2.2.2.2 [recA, recC, recB] 2 (by decide) (by decide) (by decide)⟩

theorem inFlight_append (l1 l2 : List WState) :
    inFlight (l1 ++ l2) = inFlight l1 ++ inFlight l2 := by
  rw [inFlight, inFlight, inFlight, List.filterMap_append]

theorem realResults_append_false (d : List (Nat × Bool)) (t : Nat) :
    realResults (d ++ [(t, false)]) = realResults d ++ [t] := by
  rw [realResults, realResults, List.filterMap_append]
  rfl

theorem realResults_append_true (d : List (Nat × Bool)) (t : Nat) :
    realResults (d ++ [(t, true)]) = realResults d := by
  rw [realResults, realResults, List.filterMap_append]
  simp

theorem pstep_inv {s s' : PoolSt} (h : PStep s s') (hinv : poolInv s) : poolInv s' := by
  obtain ⟨hperm, hstop⟩ := hinv
  cases h with
  | submitHandoff l1 l2 stage acc del t hstage =>
    constructor
    · have hIF0 : inFlight (l1 ++ WState.idle :: l2) = inFlight l1 ++ inFlight l2 := by
        simp [inFlight, List.filterMap_append, List.filterMap_cons, taskOf]
      have hIF : inFlight (l1 ++ WState.working t :: l2) =
          inFlight l1 ++ t :: inFlight l2 := by
        simp [inFlight, List.filterMap_append, List.filterMap_cons, taskOf]
      rw [hIF0] at hperm
      show (acc ++ [t]).Perm (realResults del ++ inFlight (l1 ++ WState.working t :: l2))
      rw [hIF]
      have hmid :=
        (@List.perm_middle Nat t (realResults del ++ inFlight l1) (inFlight l2)).symm
      rw [List.append_assoc, List.append_assoc] at hmid
      exact ((List.perm_append_singleton t acc).trans (hperm.cons t)).trans hmid
    · intro h3
      exact absurd (Nat.le_trans h3 hstage) (by decide)
  | workerFinish l1 l2 stage acc del t =>
    constructor
    · have hIF1 : inFlight (l1 ++ WState.working t :: l2) =
          inFlight l1 ++ t :: inFlight l2 := by
        simp [inFlight, List.filterMap_append, List.filterMap_cons, taskOf]
      have hIF2 : inFlight (l1 ++ WState.sending t :: l2) =
          inFlight l1 ++ t :: inFlight l2 := by
        simp [inFlight, List.filterMap_append, List.filterMap_cons, taskOf]
      rw [hIF1] at hperm
      show acc.Perm (realResults del ++ inFlight (l1 ++ WState.sending t :: l2))
      rw [hIF2]
      exact hperm
    · intro h3 w hw
      have := hstop h3 (WState.working t)
        (List.mem_append.mpr (Or.inr (List.mem_cons_self _ _)))
      exact absurd this (by simp)
  | workerDeliver l1 l2 stage acc del t hstage =>
    constructor
    · have hIFs : inFlight (l1 ++ WState.sending t :: l2) =
          inFlight l1 ++ t :: inFlight l2 := by
        simp [inFlight, List.filterMap_append, List.filterMap_cons, taskOf]
      have hIF0 : inFlight (l1 ++ WState.idle :: l2) = inFlight l1 ++ inFlight l2 := by
        simp [inFlight, List.filterMap_append, List.filterMap_cons, taskOf]
      rw [hIFs] at hperm
      show acc.Perm (realResults (del ++ [(t, false)]) ++ inFlight (l1 ++ WState.idle :: l2))
      rw [hIF0, realResults_append_false, List.append_assoc]
      exact hperm.trans (List.Perm.append_left (realResults del) List.perm_middle)
    · intro h3 w hw
      have := hstop h3 (WState.sending t)
        (List.mem_append.mpr (Or.inr (List.mem_cons_self _ _)))
      exact absurd this (by simp)
  | workerExitClosed l1 l2 stage acc del hstage =>
    constructor
    · have hIF0 : inFlight (l1 ++ WState.idle :: l2) = inFlight l1 ++ inFlight l2 := by
        simp [inFlight, List.filterMap_append, List.filterMap_cons, taskOf]
      have hIFe : inFlight (l1 ++ WState.exited :: l2) = inFlight l1 ++ inFlight l2 := by
        simp [inFlight, List.filterMap_append, List.filterMap_cons, taskOf]
      rw [hIF0] at hperm
      show acc.Perm (realResults del ++ inFlight (l1 ++ WState.exited :: l2))
      rw [hIFe]
      exact hperm
    · intro h3 w hw
      have := hstop h3 WState.idle
        (List.mem_append.mpr (Or.inr (List.mem_cons_self _ _)))
      exact absurd this (by simp)
  | workerExitCancel l1 l2 stage acc del hstage =>
    constructor
    · have hIF0 : inFlight (l1 ++ WState.idle :: l2) = inFlight l1 ++ inFlight l2 := by
        simp [inFlight, List.filterMap_append, List.filterMap_cons, taskOf]
      have hIFe : inFlight (l1 ++ WState.exited :: l2) = inFlight l1 ++ inFlight l2 := by
        simp [inFlight, List.filterMap_append, List.filterMap_cons, taskOf]
      rw [hIF0] at hperm
      show acc.Perm (realResults del ++ inFlight (l1 ++ WState.exited :: l2))
      rw [hIFe]
      exact hperm
    · intro h3 w hw
      have := hstop h3 WState.idle
        (List.mem_append.mpr (Or.inr (List.mem_cons_self _ _)))
      exact absurd this (by simp)
  | stopCancel ws acc del =>
    exact ⟨hperm, fun h3 => absurd h3 (show ¬ (3 : Nat) ≤ 1 by decide)⟩
  | stopCloseTasks ws acc del =>
    exact ⟨hperm, fun h3 => absurd h3 (show ¬ (3 : Nat) ≤ 2 by decide)⟩
  | stopAwait ws acc del hall =>
    exact ⟨hperm, fun _ => hall⟩
  | stopCloseResults ws acc del =>
    exact ⟨hperm, fun _ => hstop (show (3 : Nat) ≤ 3 by decide)⟩
  | submitClosedOk ws stage acc del t h1 h3 =>
    constructor
    · show acc.Perm (realResults (del ++ [(t, true)]) ++ inFlight ws)
      rw [realResults_append_true]
      exact hperm
    · exact hstop
  | submitClosedPanic ws acc del t =>
    exact ⟨hperm, hstop⟩
  | submitSendPanic ws stage acc del t hstage =>
    exact ⟨hperm, hstop⟩

theorem preach_inv {n : Nat} {s : PoolSt} (h : PReach n s) : poolInv s := by
  induction h with
  | init =>
    constructor
    · have hIF : inFlight (List.replicate n WState.idle) = [] := by
        rw [inFlight, List.filterMap_eq_nil_iff]
        intro w hw
        rw [List.eq_of_mem_replicate hw]
        rfl
      show ([] : List Nat).Perm (realResults [] ++ inFlight (List.replicate n WState.idle))
      rw [hIF]
      exact List.Perm.refl _
    · intro h3
      exact absurd h3 (show ¬ (3 : Nat) ≤ 0 by decide)
  | step _ hs ih =>
    exact pstep_inv hs ih

theorem inFlight_of_all_exited (ws : List WState) (h : ∀ w ∈ ws, w = WState.exited) :
    inFlight ws = [] := by
  rw [inFlight, List.filterMap_eq_nil_iff]
  intro w hw
  rw [h w hw]
  rfl

/-- C5 counterexample: a `Submit` performed after `Stop()` has completed
does *not* produce a "pool closed" result — it panics.  The trace: one
worker; `Stop()` runs to completion (cancel, close tasks, worker exits,
wait, close results); then `Submit` observes the cancelled context and
sends the pool-closed result on the already-closed `results` channel — a
send on a closed channel, i.e. a panic, with nothing delivered. -/
theorem C5_counterexample :
    PReach 1 ⟨[WState.exited], 4, [], [], true⟩ ∧
    (⟨[WState.exited], 4, [], [], true⟩ : PoolSt).panicked = true ∧
    realResults (⟨[WState.exited], 4, [], [], true⟩ : PoolSt).delivered = [] := by
  refine ⟨?_, rfl, rfl⟩
  exact
    PReach.step
      (PReach.step
        (PReach.step
          (PReach.step
            (PReach.step
              (PReach.step PReach.init (PStep.stopCancel _ _ _))
              (PStep.stopCloseTasks _ _ _))
            (PStep.workerExitClosed [] [] 2 [] [] (by decide)))
          (PStep.stopAwait _ _ _ (fun w hw => List.mem_singleton.mp hw)))
        (PStep.stopCloseResults _ _ _))
      (PStep.submitClosedPanic _ _ _ 7)

/-- C5 (amended): worker-pool result accounting.  (1) In every reachable
state in which `Stop()` has completed (the result stream is closed),
the accepted tasks are exactly — as a multiset — the tasks paired with a
processed result on the stream: one result per task submitted (accepted)
before `Stop()`.  (2) A `Submit` that observes cancellation while the
result stream is still open (stages 1–3) delivers a result carrying the
"pool closed" error.  (3) But once `Stop()` has closed the result stream
(stage 4), such a `Submit` panics (send on closed channel) and delivers
nothing — it does not produce the claimed pool-closed result. -/
theorem C5_pool_accounting :
    (∀ (n : Nat) (s : PoolSt), PReach n s → 4 ≤ s.stopStage →
      s.accepted.Perm (realResults s.delivered)) ∧
    (∀ (n : Nat) (s : PoolSt) (t : Nat), PReach n s →
      1 ≤ s.stopStage → s.stopStage ≤ 3 → s.panicked = false →
      ∃ s', PStep s s' ∧ s'.delivered = s.delivered ++ [(t, true)] ∧
        s'.panicked = false) ∧
    (∀ (n : Nat) (s : PoolSt) (t : Nat), PReach n s → s.stopStage = 4 →
      s.panicked = false →
      ∃ s', PStep s s' ∧ s'.panicked = true ∧ s'.delivered = s.delivered) := by
  refine ⟨?_, ?_, ?_⟩
  · intro n s hr h4
    obtain ⟨hperm, hstop⟩ := preach_inv hr
    have hall := hstop (Nat.le_trans (by decide) h4)
    rw [inFlight_of_all_exited s.workers hall, List.append_nil] at hperm
    exact hperm
  · intro n s t hr h1 h3 hp
    obtain ⟨ws, stage, acc, del, p⟩ := s
    cases p with
    | false => exact ⟨_, PStep.submitClosedOk ws stage acc del t h1 h3, rfl, rfl⟩
    | true => exact absurd hp (by simp)
  · intro n s t hr h4 hp
    obtain ⟨ws, stage, acc, del, p⟩ := s
    cases p with
    | false =>
      have h4' : stage = 4 := h4
      subst h4'
      exact ⟨_, PStep.submitClosedPanic ws acc del t, rfl, rfl⟩
    | true => exact absurd hp (by simp)

/-- C5 amended witness: a one-worker pool that accepts task 5, delivers
its result, and is stopped; plus a pool-closed `Submit` in the stop
window; plus the panicking `Submit` after the stream closed. -/
theorem C5_pool_accounting_witness :
    ([5] : List Nat).Perm (realResults [(5, false)]) ∧
    (∃ s', PStep ⟨[WState.exited], 2, [], [], false⟩ s' ∧
      s'.delivered = ([] : List (Nat × Bool)) ++ [(7, true)] ∧ s'.panicked = false) ∧
    (∃ s', PStep ⟨[WState.exited], 4, [], [], false⟩ s' ∧ s'.panicked = true ∧
      s'.delivered = ([] : List (Nat × Bool))) := by
  have htr2 : PReach 1 ⟨[WState.exited], 2, [], [], false⟩ :=
    PReach.step
      (PReach.step
        (PReach.step PReach.init (PStep.stopCancel _ _ _))
        (PStep.stopCloseTasks _ _ _))
      (PStep.workerExitClosed [] [] 2 [] [] (by decide))
  have htr4 : PReach 1 ⟨[WState.exited], 4, [], [], false⟩ :=
    PReach.step
      (PReach.step htr2
        (PStep.stopAwait _ _ _ (fun w hw => List.mem_singleton.mp hw)))
      (PStep.stopCloseResults _ _ _)
  have htr5 : PReach 1 ⟨[WState.exited], 4, [5], [(5, false)], false⟩ :=
    PReach.step
      (PReach.step
        (PReach.step
          (PReach.step
            (PReach.step
              (PReach.step
                (PReach.step
                  (PReach.step PReach.init
                    (PStep.submitHandoff [] [] 0 [] [] 5 (by decide)))
                  (PStep.workerFinish [] [] 0 [5] [] 5))
                (PStep.workerDeliver [] [] 0 [5] [] 5 (by decide)))
              (PStep.stopCancel _ _ _))
            (PStep.stopCloseTasks _ _ _))
          (PStep.workerExitClosed [] [] 2 [5] [(5, false)] (by decide)))
        (PStep.stopAwait _ _ _ (fun w hw => List.mem_singleton.mp hw)))
      (PStep.stopCloseResults _ _ _)
  refine ⟨?_, ?_, ?_⟩
  · exact C5_pool_accounting.1 1 ⟨[WState.exited], 4, [5], [(5, false)], false⟩ htr5
      (by decide)
  · exact C5_pool_accounting.2.1 1 ⟨[WState.exited], 2, [], [], false⟩ 7 htr2
      (by decide) (by decide) rfl
  · exact C5_pool_accounting.2.2 1 ⟨[WState.exited], 4, [], [], false⟩ 7 htr4 rfl rfl
